import Mathlib

/-!
Verification development for the include resolver of
src/IncludeResolver.hpp (nicolasventer/Include-Resolver).

The single source file is shallowly embedded here:

* Filesystem paths are modelled as their list of components (`PathC`);
  the canonical absolute path `/a/b/c` is `["a", "b", "c"]`.
  `std::filesystem::canonical` / the lexical resolution of `.` and `..`
  performed by the OS is modelled by `normalize` (no symlinks).
* The filesystem itself is a finite association list from canonical
  paths to nodes (`FileSystem`).  Directory enumeration
  (`std::filesystem::directory_iterator`, used by `updateCppFileList`)
  is modelled as filtering this list for the entries below a folder,
  which is extensionally what the recursive walk produces; the design
  document explicitly treats directory enumeration as an external
  collaborator.  `directory_iterator` on a path that is not an existing
  directory throws `std::filesystem::filesystem_error`; thrown
  exceptions are modelled by `Option`, with `none` meaning the pass
  aborted with an exception.
* `std::set` values are modelled as duplicate-free lists kept in
  comparator order by the insertion functions (`insertPathSorted`,
  `insertLocSorted`, `insertUnresolvedSorted`); the comparator of the
  source (`operator<` on paths / `IncludeLocation`) is `pathCmp` /
  `locCmp`.  `std::multimap` and `std::unordered_multimap` are
  association lists; the key order of the conflict map is never
  observed by the algorithm, only lookup by key is.
* The `ParseStatusCallback` is modelled as a state-threading function
  `Nat → Nat → PathC → σ → σ`: it receives exactly the data the C++
  callback receives and may accumulate into its own state `σ`, but has
  no access to the resolver state, exactly like a callback that does
  not capture the resolver internals.
-/

namespace IncludeResolverModel

/-- A filesystem path as its list of components.  The canonical
absolute path `/a/b/c` is `["a", "b", "c"]`; the root is `[]`. -/
abbrev PathC := List String

/-- Lexical resolution of `.` and `..` components: the model of
`std::filesystem::canonical` on a filesystem without symlinks.  Empty
components (from doubled separators) are dropped like `.`; a leading
`..` at the root stays at the root. -/
def normalize (p : PathC) : PathC :=
  p.foldl
    (fun acc c =>
      if c = "" ∨ c = "." then acc
      else if c = ".." then acc.dropLast
      else acc ++ [c]) []

/-- `include_resolver::utility::bStartWith` on character lists:
`str.substr(0, pre.size()) == pre`; the remainder `subStr` is
`str.drop pre.length`. -/
def bStartWith (str pre : List Char) : Bool :=
  if str.length < pre.length then false
  else str.take pre.length == pre

/-- `include_resolver::utility::bEndWith` on character lists:
`str.substr(str.size() - sfx.size()) == sfx`; the remainder `subStr`
is `str.take (str.length - sfx.length)`. -/
def bEndWith (str sfx : List Char) : Bool :=
  if str.length < sfx.length then false
  else str.drop (str.length - sfx.length) == sfx

/-- Splitting a character list on `/`, the component parsing of
`std::filesystem::path` applied to an include text (accumulator holds
the current component reversed). -/
def splitOnSlashAux : List Char → List Char → PathC
  | [], acc => [String.mk acc.reverse]
  | c :: rest, acc =>
    if c = '/' then String.mk acc.reverse :: splitOnSlashAux rest []
    else splitOnSlashAux rest (c :: acc)

/-- Conversion of an include text to a relative path, modelling the
component parsing of `std::filesystem::path(include)`. -/
def splitPath (s : String) : PathC := splitOnSlashAux s.data []

/-- The character list of the display string of a path (separator
`/`), as produced by `PrettyPath::prettyString` on a canonical
path. -/
def pathChars : PathC → List Char
  | [] => []
  | [c] => c.data
  | c :: rest => c.data ++ '/' :: pathChars rest

/-- The extension list of `include_resolver::utility::isCppFile`. -/
def cppExtensionList : List String :=
  [".h", ".hpp", ".hxx", ".hh", ".c", ".cpp", ".cxx"]

/-- `include_resolver::utility::isCppFile`: the path string ends with
one of the known source/header extensions (via `bEndWith`, as in the
source). -/
def isCppFile (p : PathC) : Bool :=
  cppExtensionList.any (fun ext => bEndWith (pathChars p) ext.data)

/-- Component-level model of `bEndWith(s, "/" + include)` from
`findInclude`: `sfx` is a component suffix of `str` (the `/` glued in
front of the include text in the source enforces exactly the component
boundary).  Mirrors `bEndWith`: compare the last `sfx.length`
components.  The associated prefix is `str.take (str.length -
sfx.length)`, mirroring `subStr = str.substr(0, offset)`. -/
def bEndWithPath (str sfx : PathC) : Bool :=
  if str.length < sfx.length then false
  else str.drop (str.length - sfx.length) == sfx

/-- Index of the first occurrence of one of `targets` in `cs` at or
after position `start`: the model of `find_first_of(targets, start)`;
`none` is `npos`. -/
def findCharFrom (cs : List Char) (targets : List Char) (start : Nat) : Option Nat :=
  match (cs.drop start).findIdx? (fun c => targets.contains c) with
  | some j => some (start + j)
  | none => none

/-- The characters of the include directive marker. -/
def includeDirectiveChars : List Char := "#include ".data

/-- The include-directive scanner for one line, modelling lines
247-254 of `computeIncludeResolve`:
`bStartWith(line, "#include ", substr)`, then
`startPos = substr.find_first_of("\x22<")`, then
`endPos = substr.find_first_of("\x22>", startPos + 1)`, then
`include = substr.substr(startPos + 1, endPos - startPos - 1)`.
When `endPos` is `npos` the count is huge and `substr` clamps to the
end of the line, so the include text is everything after the opening
delimiter; there is no skip in the source for a missing closing
delimiter. -/
def parseIncludeDirective (line : String) : Option String :=
  if bStartWith line.data includeDirectiveChars then
    let sub := line.data.drop includeDirectiveChars.length
    match findCharFrom sub ['"', '<'] 0 with
    | none => none
    | some startPos =>
      let endPos : Nat :=
        match findCharFrom sub ['"', '>'] (startPos + 1) with
        | some e => e
        | none => sub.length
      some (String.mk ((sub.drop (startPos + 1)).take (endPos - startPos - 1)))
  else none

/-- Three-way comparison of characters by code point. -/
def charCmp (a b : Char) : Ordering :=
  if a < b then Ordering.lt else if b < a then Ordering.gt else Ordering.eq

/-- Lexicographic three-way comparison of character lists
(`std::string::operator<`). -/
def charListCmp : List Char → List Char → Ordering
  | [], [] => Ordering.eq
  | [], _ :: _ => Ordering.lt
  | _ :: _, [] => Ordering.gt
  | a :: as, b :: bs =>
    match charCmp a b with
    | Ordering.eq => charListCmp as bs
    | o => o

/-- Lexicographic comparison of paths by components, modelling
`std::filesystem::path::operator<` on canonical paths. -/
def pathCmp : PathC → PathC → Ordering
  | [], [] => Ordering.eq
  | [], _ :: _ => Ordering.lt
  | _ :: _, [] => Ordering.gt
  | a :: as, b :: bs =>
    match charListCmp a.data b.data with
    | Ordering.eq => pathCmp as bs
    | o => o

/-- `(file path, 1-based line)`: the `IncludeLocation` struct. -/
structure IncludeLocation where
  filePath : PathC
  line : Nat
deriving DecidableEq, Repr

/-- The `UnresolvedInclude` struct: an `IncludeLocation` plus the raw
include text (field `include` of the source, named `incl` here because
`include` is a Lean keyword). -/
structure UnresolvedInclude where
  filePath : PathC
  line : Nat
  incl : String
deriving DecidableEq, Repr

/-- The `ConflictedInclude` struct: all locations requesting an
include text plus all directories that can resolve it. -/
structure ConflictedInclude where
  includeLocationSet : List IncludeLocation
  resolveIncludeFolderSet : List PathC
deriving DecidableEq, Repr

/-- The `IncludeResolverResult` struct. -/
structure IncludeResolverResult where
  invalidPathSet : List PathC := []
  unresolvedIncludeSet : List UnresolvedInclude := []
  conflictedIncludeMap : List (String × ConflictedInclude) := []
  resolveIncludeFolderSet : List PathC := []
deriving DecidableEq, Repr

/-- The `IncludeResolverSettings` struct. -/
structure IncludeResolverSettings where
  toParseFolderList : List PathC
  includeFolderList : List PathC
  resolveFolderList : List PathC
deriving DecidableEq, Repr

/-- Comparator of `IncludeLocation` (`operator<` of the source:
first by file path, then by line). -/
def locCmp (a b : IncludeLocation) : Ordering :=
  match pathCmp a.filePath b.filePath with
  | Ordering.eq => compare a.line b.line
  | o => o

/-- Ordered-set insertion for `std::set<PrettyPath>` /
`std::set<std::filesystem::path>`: no-op when the element is already
present. -/
def insertPathSorted (x : PathC) : List PathC → List PathC
  | [] => [x]
  | y :: ys =>
    if x = y then y :: ys
    else
      match pathCmp x y with
      | Ordering.lt => x :: y :: ys
      | _ => y :: insertPathSorted x ys

/-- Ordered-set insertion for `std::set<IncludeLocation>`. -/
def insertLocSorted (x : IncludeLocation) : List IncludeLocation → List IncludeLocation
  | [] => [x]
  | y :: ys =>
    if x = y then y :: ys
    else
      match locCmp x y with
      | Ordering.lt => x :: y :: ys
      | _ => y :: insertLocSorted x ys

/-- Ordered-set insertion for `std::set<UnresolvedInclude>`.  The
comparator of the source compares only the location part (the slice to
`IncludeLocation`), so an element with an equivalent location is kept
as is and the new one is dropped, exactly like `std::set::insert`. -/
def insertUnresolvedSorted (x : UnresolvedInclude) : List UnresolvedInclude → List UnresolvedInclude
  | [] => [x]
  | y :: ys =>
    if x.filePath = y.filePath ∧ x.line = y.line then y :: ys
    else
      match locCmp ⟨x.filePath, x.line⟩ ⟨y.filePath, y.line⟩ with
      | Ordering.lt => x :: y :: ys
      | _ => y :: insertUnresolvedSorted x ys

/-- A filesystem node: a directory or a regular file with its lines. -/
structure FSNode where
  isDir : Bool
  lines : List String
deriving DecidableEq, Repr

/-- The filesystem: a finite map from canonical paths to nodes.  The
entry order is the (otherwise unspecified) enumeration order of the
OS. -/
structure FileSystem where
  entries : List (PathC × FSNode)
deriving Repr

/-- Node stored at an exact canonical path. -/
def FileSystem.lookupNode (fs : FileSystem) (p : PathC) : Option FSNode :=
  fs.entries.lookup p

/-- Model of `std::filesystem::exists`: the OS resolves `.` and `..`
lexically (no symlinks), then checks for an entry. -/
def FileSystem.existsPath (fs : FileSystem) (p : PathC) : Bool :=
  (fs.lookupNode (normalize p)).isSome

/-- The path names an existing directory. -/
def FileSystem.isDirPath (fs : FileSystem) (p : PathC) : Bool :=
  match fs.lookupNode (normalize p) with
  | some n => n.isDir
  | none => false

/-- Model of opening an `std::ifstream` on a canonical path and
reading it with `getline`: the lines of a regular file, nothing
otherwise. -/
def FileSystem.readLines (fs : FileSystem) (p : PathC) : List String :=
  match fs.lookupNode p with
  | some n => if n.isDir then [] else n.lines
  | none => []

/-- All canonical paths of the filesystem. -/
def FileSystem.allKeys (fs : FileSystem) : List PathC :=
  fs.entries.map Prod.fst

/-- Wellformedness of the filesystem model: entries are stored under
their canonical names (fixed points of `normalize`). -/
def FileSystem.wf (fs : FileSystem) : Bool :=
  fs.entries.all (fun e => normalize e.1 == e.1)

/-- `include_resolver::utility::updateCppFileList`: recursively
collect the source/header files below a folder.  `directory_iterator`
on a path that is not an existing directory throws, modelled by
`none`.  The recursive walk of the source visits exactly the non-dir
entries strictly below the folder whose name passes `isCppFile`, and
pushes `canonical(absolute(path))`, i.e. the stored canonical names;
the flat filesystem model yields them by filtering. -/
def updateCppFileList (fs : FileSystem) (folderPath : PathC) : Option (List PathC) :=
  let base := normalize folderPath
  match fs.lookupNode base with
  | some n =>
    if n.isDir then
      some ((fs.entries.filter
        (fun e => !e.2.isDir && base.isPrefixOf e.1 && isCppFile e.1)).map Prod.fst)
    else none
  | none => none

/-- Lines 212-213 of `computeIncludeResolve`: seed the worklist from
every `toParse` folder, in order.  No existence check is performed for
these folders in the source, so a missing folder propagates the
`directory_iterator` exception (`none`). -/
def collectCppFiles (fs : FileSystem) : List PathC → Option (List PathC)
  | [] => some []
  | folder :: rest =>
    match updateCppFileList fs folder with
    | some files =>
      match collectCppFiles fs rest with
      | some more => some (files ++ more)
      | none => none
    | none => none

/-- Lines 215-222 of `computeIncludeResolve`: existing `include`
folders are canonicalized into `result.resolveIncludeFolderSet`,
missing ones recorded in `result.invalidPathSet`. -/
def scanIncludeFolders (fs : FileSystem) : List PathC → IncludeResolverResult → IncludeResolverResult
  | [], r => r
  | f :: rest, r =>
    scanIncludeFolders fs rest
      (if fs.existsPath f then
        { r with resolveIncludeFolderSet := insertPathSorted (normalize f) r.resolveIncludeFolderSet }
      else
        { r with invalidPathSet := insertPathSorted f r.invalidPathSet })

/-- Lines 223-230 of `computeIncludeResolve`: existing `resolve`
folders are walked into the resolve file list, missing ones recorded
as invalid.  A `resolve` entry that exists but is not a directory
makes `directory_iterator` throw (`none`). -/
def scanResolveFolders (fs : FileSystem) : List PathC → IncludeResolverResult → Option (List PathC × IncludeResolverResult)
  | [], r => some ([], r)
  | f :: rest, r =>
    if fs.existsPath f then
      match updateCppFileList fs f with
      | some files =>
        match scanResolveFolders fs rest r with
        | some (more, r2) => some (files ++ more, r2)
        | none => none
      | none => none
    else
      scanResolveFolders fs rest
        { r with invalidPathSet := insertPathSorted f r.invalidPathSet }

/-- Lines 231-232: the resolve files indexed by filename
(`resolveFileMultiMap`). -/
def buildResolveFileMultiMap (resolveFileList : List PathC) : List (String × PathC) :=
  resolveFileList.map (fun f => (f.getLastD "", f))

/-- The per-pass mutable state of `computeIncludeResolve`: the result
being accumulated, the growing worklist `cppFileToParseList` and its
membership set `cppFileToParseSet`. -/
structure PassState where
  result : IncludeResolverResult
  cppFileToParseList : List PathC
  cppFileToParseSet : List PathC
deriving DecidableEq, Repr

/-- The `addToParse` helper (lines 258-266): canonicalize, then
enqueue if not already a member. -/
def addToParse (st : PassState) (includePath : PathC) : PassState :=
  let canonicalPath := normalize includePath
  if st.cppFileToParseSet.contains canonicalPath then st
  else
    { st with
      cppFileToParseSet := canonicalPath :: st.cppFileToParseSet
      cppFileToParseList := st.cppFileToParseList ++ [canonicalPath] }

/-- The `findInclude` helper (lines 284-297): all candidates of the
resolve pool whose filename matches the include's base name and whose
full path has the include text as a component suffix contribute their
prefix directory; the result is the `std::set` of those directories.
The iteration order of `equal_range` on the unordered multimap is
irrelevant because the result is a set. -/
def findInclude (resolveFileMultiMap : List (String × PathC)) (incl : String) : List PathC :=
  let inclParts := splitPath incl
  let includeBaseName : String := inclParts.getLastD ""
  (resolveFileMultiMap.filter (fun e => e.1 == includeBaseName)).foldl
    (fun acc e =>
      if bEndWithPath e.2 inclParts then
        insertPathSorted (e.2.take (e.2.length - inclParts.length)) acc
      else acc) []

/-- The `findProjectInclude` helper (lines 274-282): try each known
include directory in stored (set) order, returning the first join that
exists. -/
def findProjectInclude (fs : FileSystem) (resolveIncludeFolderSet : List PathC) (incl : String) : Option PathC :=
  resolveIncludeFolderSet.findSome? (fun d =>
    let fileFound := d ++ splitPath incl
    if fs.existsPath fileFound then some fileFound else none)

/-- Lookup of an include text in the conflict map
(`result.conflictedIncludeMap.find(include)`). -/
def conflictLookup (m : List (String × ConflictedInclude)) (t : String) : Option ConflictedInclude :=
  m.lookup t

/-- Append a location to the existing conflict entry of an include
text (`it->second.includeLocationSet.insert(...)`). -/
def conflictAppendLoc (m : List (String × ConflictedInclude)) (t : String) (loc : IncludeLocation) : List (String × ConflictedInclude) :=
  m.map (fun e =>
    if e.1 = t then
      (e.1, { e.2 with includeLocationSet := insertLocSorted loc e.2.includeLocationSet })
    else e)

/-- Processing of one discovered include occurrence
(lines 256-343 of `computeIncludeResolve`), in source order:
relative resolution, existing-conflict continuation, candidate-pool
search (single candidate vs several), known-directory fallback,
unresolved record. -/
def processInclude (fs : FileSystem) (resolveFileMultiMap : List (String × PathC))
    (filePath : PathC) (lineIndex : Nat) (incl : String) (st : PassState) : PassState :=
  let includePath := filePath.dropLast ++ splitPath incl
  if fs.existsPath includePath then
    addToParse st includePath
  else
    match conflictLookup st.result.conflictedIncludeMap incl with
    | some _ =>
      { st with result :=
        { st.result with conflictedIncludeMap :=
            conflictAppendLoc st.result.conflictedIncludeMap incl ⟨filePath, lineIndex⟩ } }
    | none =>
      let conflictDirs := findInclude resolveFileMultiMap incl
      if conflictDirs ≠ [] then
        if conflictDirs.length == 1 then
          let resolveIncludeFolderFound := conflictDirs.headD []
          let st1 := { st with result :=
            { st.result with resolveIncludeFolderSet :=
                insertPathSorted resolveIncludeFolderFound st.result.resolveIncludeFolderSet } }
          addToParse st1 (resolveIncludeFolderFound ++ splitPath incl)
        else
          let conflictedInclude : ConflictedInclude :=
            { includeLocationSet := [⟨filePath, lineIndex⟩]
              resolveIncludeFolderSet := conflictDirs }
          let st1 := { st with result :=
            { st.result with conflictedIncludeMap :=
                st.result.conflictedIncludeMap ++ [(incl, conflictedInclude)] } }
          conflictDirs.foldl
            (fun s d => addToParse s (d ++ splitPath incl)) st1
      else
        match findProjectInclude fs st.result.resolveIncludeFolderSet incl with
        | some fileFound => addToParse st fileFound
        | none =>
          { st with result :=
            { st.result with unresolvedIncludeSet :=
                insertUnresolvedSorted ⟨filePath, lineIndex, incl⟩ st.result.unresolvedIncludeSet } }

/-- Processing of one scanned line: lines that do not parse as an
include directive leave the state unchanged. -/
def processLine (fs : FileSystem) (resolveFileMultiMap : List (String × PathC))
    (filePath : PathC) (lineIndex : Nat) (line : String) (st : PassState) : PassState :=
  match parseIncludeDirective line with
  | none => st
  | some incl => processInclude fs resolveFileMultiMap filePath lineIndex incl st

/-- Scanning the lines of a file from a given 1-based line index. -/
def processLinesFrom (fs : FileSystem) (resolveFileMultiMap : List (String × PathC))
    (filePath : PathC) : List String → Nat → PassState → PassState
  | [], _, st => st
  | l :: ls, idx, st =>
    processLinesFrom fs resolveFileMultiMap filePath ls (idx + 1)
      (processLine fs resolveFileMultiMap filePath idx l st)

/-- Scanning one worklist file (lines 245-344): open it, scan every
line with `lineIndex` starting at 1. -/
def processFile (fs : FileSystem) (resolveFileMultiMap : List (String × PathC))
    (st : PassState) (filePath : PathC) : PassState :=
  processLinesFrom fs resolveFileMultiMap filePath (fs.readLines filePath) 1 st

/-- The worklist loop (lines 237-345): index `i` walks the growing
`cppFileToParseList`; the status callback is invoked with
`(i + 1, cppFileToParseList.size(), file)` before the file is scanned.
The loop of the source needs no fuel (it stops when `i` reaches the
list size); the fuel here only makes the recursion structural, and
`computeIncludeResolveFull` supplies enough of it for the loop to
reach the end of the worklist (proved in the termination theorem). -/
def parseLoop {σ : Type} (fs : FileSystem) (resolveFileMultiMap : List (String × PathC))
    (cb : Nat → Nat → PathC → σ → σ) : Nat → Nat → PassState → σ → PassState × σ
  | 0, _, st, s => (st, s)
  | fuel + 1, i, st, s =>
    if h : i < st.cppFileToParseList.length then
      let cppFileToParse := st.cppFileToParseList.get ⟨i, h⟩
      let s2 := cb (i + 1) st.cppFileToParseList.length cppFileToParse s
      parseLoop fs resolveFileMultiMap cb fuel (i + 1)
        (processFile fs resolveFileMultiMap st cppFileToParse) s2
    else (st, s)

/-- The seed worklist of a run (`cppFileToParseList` after line 213). -/
def seedsOf (fs : FileSystem) (stg : IncludeResolverSettings) : Option (List PathC) :=
  collectCppFiles fs stg.toParseFolderList

/-- The resolve-folder scan of a run: the resolve file list and the
result pre-populated by the include/resolve folder scans. -/
def resolveScanOf (fs : FileSystem) (stg : IncludeResolverSettings) : Option (List PathC × IncludeResolverResult) :=
  scanResolveFolders fs stg.resolveFolderList
    (scanIncludeFolders fs stg.includeFolderList {})

/-- The filename-indexed resolve pool of a run. -/
def poolOf (fs : FileSystem) (stg : IncludeResolverSettings) : Option (List (String × PathC)) :=
  (resolveScanOf fs stg).map (fun x => buildResolveFileMultiMap x.1)

/-- The membership set built from the seed list (lines 234-235). -/
def seedSet (seeds : List PathC) : List PathC :=
  seeds.foldl (fun s p => if s.contains p then s else p :: s) []

/-- The initial pass state of a run. -/
def initialStateOf (seeds : List PathC) (r0 : IncludeResolverResult) : PassState :=
  { result := r0, cppFileToParseList := seeds, cppFileToParseSet := seedSet seeds }

/-- Fuel that always lets `parseLoop` run the worklist to completion:
the worklist never exceeds the seeds plus the distinct canonical paths
of the filesystem. -/
def fuelOf (fs : FileSystem) (seeds : List PathC) : Nat :=
  seeds.length + fs.allKeys.length + 1

/-- `include_resolver::computeIncludeResolve`, with the callback state
exposed and the final pass state returned.  `none` models an escaped
`std::filesystem` exception (missing `toParse` folder, or a `resolve`
entry that exists but is not a directory). -/
def computeIncludeResolveFull {σ : Type} (fs : FileSystem) (stg : IncludeResolverSettings)
    (cb : Nat → Nat → PathC → σ → σ) (s0 : σ) : Option (PassState × σ) :=
  match seedsOf fs stg, resolveScanOf fs stg with
  | some seeds, some (resolveFileList, r0) =>
    some (parseLoop fs (buildResolveFileMultiMap resolveFileList) cb
      (fuelOf fs seeds) 0 (initialStateOf seeds r0) s0)
  | _, _ => none

/-- `include_resolver::computeIncludeResolve` with the default (no-op)
status callback, projected to its returned `IncludeResolverResult`. -/
def computeIncludeResolve (fs : FileSystem) (stg : IncludeResolverSettings) : Option IncludeResolverResult :=
  (computeIncludeResolveFull fs stg (fun _ _ _ s => s) ()).map (fun x => x.1.result)

/-- The include occurrence at a 1-based line of a file: the include
text the scanner extracts from that line, if any.  Deterministic in
the (immutable) filesystem. -/
def occAt (fs : FileSystem) (fp : PathC) (idx : Nat) : Option String :=
  match (fs.readLines fp).get? (idx - 1) with
  | some l => parseIncludeDirective l
  | none => none

/-- The five resolution strategies of the design document (section
4.2), in their stated priority order. -/
inductive ResolutionStrategy where
  | relativeResolution
  | conflictContinuation
  | candidatePoolSearch
  | knownDirFallback
  | recordUnresolved
deriving DecidableEq, Repr

/-- Strategy selection as worded by the design document: the first
applicable of (1) relative resolution, (2) existing-conflict
continuation, (3) candidate-pool search, (4) known-directory
fallback, (5) record unresolved. -/
def chooseStrategy (fs : FileSystem) (resolveFileMultiMap : List (String × PathC))
    (st : PassState) (filePath : PathC) (incl : String) : ResolutionStrategy :=
  if fs.existsPath (filePath.dropLast ++ splitPath incl) then
    ResolutionStrategy.relativeResolution
  else if (conflictLookup st.result.conflictedIncludeMap incl).isSome then
    ResolutionStrategy.conflictContinuation
  else if findInclude resolveFileMultiMap incl ≠ [] then
    ResolutionStrategy.candidatePoolSearch
  else if (findProjectInclude fs st.result.resolveIncludeFolderSet incl).isSome then
    ResolutionStrategy.knownDirFallback
  else ResolutionStrategy.recordUnresolved

/-- Effect of one resolution strategy on the pass state, as worded by
the design document. -/
def applyStrategy (fs : FileSystem) (resolveFileMultiMap : List (String × PathC))
    (filePath : PathC) (lineIndex : Nat) (incl : String) (st : PassState) :
    ResolutionStrategy → PassState
  | ResolutionStrategy.relativeResolution =>
    addToParse st (filePath.dropLast ++ splitPath incl)
  | ResolutionStrategy.conflictContinuation =>
    { st with result :=
      { st.result with conflictedIncludeMap :=
          conflictAppendLoc st.result.conflictedIncludeMap incl ⟨filePath, lineIndex⟩ } }
  | ResolutionStrategy.candidatePoolSearch =>
    let conflictDirs := findInclude resolveFileMultiMap incl
    if conflictDirs.length == 1 then
      let d := conflictDirs.headD []
      addToParse
        { st with result :=
          { st.result with resolveIncludeFolderSet :=
              insertPathSorted d st.result.resolveIncludeFolderSet } }
        (d ++ splitPath incl)
    else
      conflictDirs.foldl (fun s d => addToParse s (d ++ splitPath incl))
        { st with result :=
          { st.result with conflictedIncludeMap :=
              st.result.conflictedIncludeMap ++
                [(incl, ⟨[⟨filePath, lineIndex⟩], conflictDirs⟩)] } }
  | ResolutionStrategy.knownDirFallback =>
    match findProjectInclude fs st.result.resolveIncludeFolderSet incl with
    | some fileFound => addToParse st fileFound
    | none => st
  | ResolutionStrategy.recordUnresolved =>
    { st with result :=
      { st.result with unresolvedIncludeSet :=
          insertUnresolvedSorted ⟨filePath, lineIndex, incl⟩ st.result.unresolvedIncludeSet } }

/-- The result-side invariant maintained by the pass: conflict-map
keys are pairwise distinct; every conflict entry stores exactly the
candidate directories of its include text, of which there are at least
two, and a non-empty location set all of whose locations really carry
that include text; every unresolved record carries the include text of
its line, and that text has zero candidates. -/
def ResultInv (fs : FileSystem) (pool : List (String × PathC)) (r : IncludeResolverResult) : Prop :=
  (r.conflictedIncludeMap.map Prod.fst).Nodup ∧
  (∀ e ∈ r.conflictedIncludeMap,
    e.2.resolveIncludeFolderSet = findInclude pool e.1 ∧
    2 ≤ (findInclude pool e.1).length ∧
    e.2.includeLocationSet ≠ [] ∧
    (∀ loc ∈ e.2.includeLocationSet, occAt fs loc.filePath loc.line = some e.1)) ∧
  (∀ u ∈ r.unresolvedIncludeSet,
    occAt fs u.filePath u.line = some u.incl ∧ findInclude pool u.incl = [])

/-- Pool wellformedness: every pool file is a stored canonical path of
the filesystem.  Holds for the pool built from the resolve-folder walk
on a wellformed filesystem. -/
def PoolOK (fs : FileSystem) (pool : List (String × PathC)) : Prop :=
  ∀ e ∈ pool, e.2 ∈ fs.allKeys ∧ normalize e.2 = e.2

/-- The worklist invariant: the membership set mirrors the list, and
the part of the list beyond the seeds is duplicate-free, disjoint from
the seeds, and made of stored canonical paths. -/
def WorklistInv (fs : FileSystem) (seeds : List PathC) (st : PassState) : Prop :=
  (∀ p, p ∈ st.cppFileToParseSet ↔ p ∈ st.cppFileToParseList) ∧
  (∃ tail, st.cppFileToParseList = seeds ++ tail ∧ tail.Nodup ∧
    (∀ p ∈ tail, p ∉ seeds) ∧ (∀ p ∈ tail, p ∈ fs.allKeys))

/-- A status callback that records every invocation
`(current, total, file)` in order. -/
def traceCb (current total : Nat) (filePath : PathC) (tr : List (Nat × Nat × PathC)) : List (Nat × Nat × PathC) :=
  tr ++ [(current, total, filePath)]

/-- An empty filesystem (every `exists` check fails on it). -/
def fsEmpty : FileSystem := ⟨[]⟩

/-- An empty pass state. -/
def stEmpty : PassState := { result := {}, cppFileToParseList := [], cppFileToParseSet := [] }

/-- A one-candidate resolve pool for the include text `a.h`. -/
def poolSingleA : List (String × PathC) := [("a.h", ["r", "D", "a.h"])]

/-- A pass state already holding a conflict entry for `u.h`. -/
def stConflictU : PassState :=
  { result := { conflictedIncludeMap :=
      [("u.h", ⟨[⟨["p", "f1.cpp"], 1⟩], [["r", "D"], ["r", "E"]]⟩)] }
    cppFileToParseList := []
    cppFileToParseSet := [] }

/-- Concrete project: one parse file whose three includes are resolved
by a unique pool candidate, conflicted between two pool directories,
and unresolved, respectively. -/
def fsPool : FileSystem := ⟨[
  (["p"], ⟨true, []⟩),
  (["p", "main.cpp"], ⟨false,
    ["#include \"a.h\"", "#include \"b.h\"", "#include \"zzz.h\""]⟩),
  (["r"], ⟨true, []⟩),
  (["r", "D"], ⟨true, []⟩),
  (["r", "D", "a.h"], ⟨false, []⟩),
  (["r", "D", "b.h"], ⟨false, []⟩),
  (["r", "E"], ⟨true, []⟩),
  (["r", "E", "b.h"], ⟨false, []⟩)]⟩

/-- Settings for `fsPool`: parse `p`, resolve pool `r`. -/
def stgPool : IncludeResolverSettings := ⟨[["p"]], [], [["r"]]⟩

/-- Concrete project where an include text is conflicted at one
occurrence and relatively resolvable at a later one. -/
def fsRel : FileSystem := ⟨[
  (["p"], ⟨true, []⟩),
  (["p", "f1.cpp"], ⟨false, ["#include \"u.h\""]⟩),
  (["p", "sub"], ⟨true, []⟩),
  (["p", "sub", "f2.cpp"], ⟨false, ["#include \"u.h\""]⟩),
  (["p", "sub", "u.h"], ⟨false, []⟩),
  (["r"], ⟨true, []⟩),
  (["r", "D"], ⟨true, []⟩),
  (["r", "D", "u.h"], ⟨false, []⟩),
  (["r", "E"], ⟨true, []⟩),
  (["r", "E", "u.h"], ⟨false, []⟩)]⟩

/-- Settings for `fsRel`. -/
def stgRel : IncludeResolverSettings := ⟨[["p"]], [], [["r"]]⟩

/-- Concrete project whose single parse file contains an include
directive with an opening `"` but no closing delimiter. -/
def fsMal : FileSystem := ⟨[
  (["p"], ⟨true, []⟩),
  (["p", "main.cpp"], ⟨false, ["#include \"missing.h"]⟩)]⟩

/-- Settings for `fsMal`: parse `p` only. -/
def stgMal : IncludeResolverSettings := ⟨[["p"]], [], []⟩

/-- Settings naming a parse folder that does not exist in `fsMal`. -/
def stgMissingParse : IncludeResolverSettings := ⟨[["nope"]], [], []⟩

/-- Settings with existing parse folder but missing include and
resolve folders. -/
def stgInv : IncludeResolverSettings := ⟨[["p"]], [["noinc"]], [["nores"]]⟩

/-- A filesystem with one parse file and settings listing the same
parse folder twice. -/
def fsDup : FileSystem := ⟨[
  (["p"], ⟨true, []⟩),
  (["p", "main.cpp"], ⟨false, []⟩)]⟩

/-- Settings listing the parse folder of `fsDup` twice. -/
def stgDup : IncludeResolverSettings := ⟨[["p"], ["p"]], [], []⟩

/-- Small project where the only include is resolved by a unique pool
candidate. -/
def fsTwice : FileSystem := ⟨[
  (["p"], ⟨true, []⟩),
  (["p", "a.cpp"], ⟨false, ["#include \"b.h\""]⟩),
  (["r"], ⟨true, []⟩),
  (["r", "D"], ⟨true, []⟩),
  (["r", "D", "b.h"], ⟨false, []⟩)]⟩

/-- Settings for `fsTwice`. -/
def stgTwice : IncludeResolverSettings := ⟨[["p"]], [], [["r"]]⟩

/-- The result of running the pass on `fsPool` with `stgPool`. -/
def rPoolLit : IncludeResolverResult :=
  { invalidPathSet := []
    unresolvedIncludeSet := [⟨["p", "main.cpp"], 3, "zzz.h"⟩]
    conflictedIncludeMap := [("b.h", ⟨[⟨["p", "main.cpp"], 2⟩], [["r", "D"], ["r", "E"]]⟩)]
    resolveIncludeFolderSet := [["r", "D"]] }

/-- The filename-indexed resolve pool of the `fsPool` run. -/
def poolPoolLit : List (String × PathC) :=
  [("a.h", ["r", "D", "a.h"]), ("b.h", ["r", "D", "b.h"]), ("b.h", ["r", "E", "b.h"])]

/-- The resolve-folder scan of the `fsPool` run. -/
def prPoolLit : List PathC × IncludeResolverResult :=
  ([["r", "D", "a.h"], ["r", "D", "b.h"], ["r", "E", "b.h"]], {})

/-- The final pass state of the `fsPool` run. -/
def stPoolFinalLit : PassState :=
  { result := rPoolLit
    cppFileToParseList := [["p", "main.cpp"], ["r", "D", "a.h"], ["r", "D", "b.h"], ["r", "E", "b.h"]]
    cppFileToParseSet := [["r", "E", "b.h"], ["r", "D", "b.h"], ["r", "D", "a.h"], ["p", "main.cpp"]] }

/-- The callback trace of the `fsPool` run. -/
def trPoolLit : List (Nat × Nat × PathC) :=
  [(1, 1, ["p", "main.cpp"]), (2, 4, ["r", "D", "a.h"]),
   (3, 4, ["r", "D", "b.h"]), (4, 4, ["r", "E", "b.h"])]

/-- The result of running the pass on `fsRel` with `stgRel`. -/
def rRelLit : IncludeResolverResult :=
  { invalidPathSet := []
    unresolvedIncludeSet := []
    conflictedIncludeMap := [("u.h", ⟨[⟨["p", "f1.cpp"], 1⟩], [["r", "D"], ["r", "E"]]⟩)]
    resolveIncludeFolderSet := [] }

/-- The result of running the pass on `fsMal` with `stgInv`. -/
def rInvLit : IncludeResolverResult :=
  { invalidPathSet := [["noinc"], ["nores"]]
    unresolvedIncludeSet := [⟨["p", "main.cpp"], 1, "missing.h"⟩]
    conflictedIncludeMap := []
    resolveIncludeFolderSet := [] }

/-- Membership in the ordered-set insertion of paths. -/
theorem mem_insertPathSorted {x y : PathC} {l : List PathC} :
    x ∈ insertPathSorted y l ↔ x = y ∨ x ∈ l := by
  induction l with
  | nil => simp [insertPathSorted]
  | cons z zs ih =>
    simp only [insertPathSorted]
    split
    · rename_i h
      subst h
      simp only [List.mem_cons]
      tauto
    · split
      · simp only [List.mem_cons]
        try tauto
      · simp only [List.mem_cons, ih]
        try tauto

/-- Membership in the ordered-set insertion of locations. -/
theorem mem_insertLocSorted {x y : IncludeLocation} {l : List IncludeLocation} :
    x ∈ insertLocSorted y l ↔ x = y ∨ x ∈ l := by
  induction l with
  | nil => simp [insertLocSorted]
  | cons z zs ih =>
    simp only [insertLocSorted]
    split
    · rename_i h
      subst h
      simp only [List.mem_cons]
      tauto
    · split
      · simp only [List.mem_cons]
        try tauto
      · simp only [List.mem_cons, ih]
        try tauto

/-- Insertion into a location set never empties it. -/
theorem insertLocSorted_ne_nil (y : IncludeLocation) (l : List IncludeLocation) :
    insertLocSorted y l ≠ [] := by
  cases l with
  | nil => simp [insertLocSorted]
  | cons z zs =>
    simp only [insertLocSorted]
    split
    · simp
    · split <;> simp

/-- Forward membership for the unresolved-set insertion (the inserted
element may be dropped on an equivalent location, so only this
direction holds in general). -/
theorem mem_insertUnresolvedSorted {x y : UnresolvedInclude} {l : List UnresolvedInclude} :
    x ∈ insertUnresolvedSorted y l → x = y ∨ x ∈ l := by
  induction l with
  | nil => simp [insertUnresolvedSorted]
  | cons z zs ih =>
    simp only [insertUnresolvedSorted]
    split
    · simp only [List.mem_cons]
      tauto
    · split
      · simp only [List.mem_cons]
        tauto
      · simp only [List.mem_cons]
        intro hx
        rcases hx with hx | hx
        · exact Or.inr (Or.inl hx)
        · rcases ih hx with h2 | h2
          · exact Or.inl h2
          · exact Or.inr (Or.inr h2)

/-- Appending a location to a conflict entry does not change the key
list of the map. -/
theorem conflictAppendLoc_keys (m : List (String × ConflictedInclude)) (t : String) (loc : IncludeLocation) :
    (conflictAppendLoc m t loc).map Prod.fst = m.map Prod.fst := by
  induction m with
  | nil => rfl
  | cons e es ih =>
    simp only [conflictAppendLoc, List.map_cons] at ih ⊢
    by_cases h : e.1 = t <;> simp [h, ih]

/-- Every entry of the location-appended map comes from an entry of
the original map, unchanged or with the location inserted (the latter
only for the looked-up include text). -/
theorem mem_conflictAppendLoc {m : List (String × ConflictedInclude)} {t : String}
    {loc : IncludeLocation} {e' : String × ConflictedInclude} :
    e' ∈ conflictAppendLoc m t loc →
    ∃ e, e ∈ m ∧ (e' = e ∨
      (e.1 = t ∧ e' = (e.1, ⟨insertLocSorted loc e.2.includeLocationSet, e.2.resolveIncludeFolderSet⟩))) := by
  intro hmem
  simp only [conflictAppendLoc, List.mem_map] at hmem
  obtain ⟨e, he, heq⟩ := hmem
  refine ⟨e, he, ?_⟩
  by_cases h : e.1 = t
  · right
    refine ⟨h, ?_⟩
    rw [← heq]
    simp [h]
  · left
    rw [← heq]
    simp [h]

/-- `addToParse` never touches the result. -/
theorem addToParse_result (st : PassState) (q : PathC) :
    (addToParse st q).result = st.result := by
  simp only [addToParse]
  split <;> rfl

/-- Folded `addToParse` calls never touch the result. -/
theorem foldl_addToParse_result (l : List PathC) (g : PathC → PathC) :
    ∀ st : PassState, (l.foldl (fun s d => addToParse s (g d)) st).result = st.result := by
  induction l with
  | nil => intro st; rfl
  | cons d ds ih =>
    intro st
    simp only [List.foldl_cons]
    rw [ih, addToParse_result]

/-- `addToParse` only appends to the worklist. -/
theorem addToParse_list_isPrefix (st : PassState) (q : PathC) :
    st.cppFileToParseList <+: (addToParse st q).cppFileToParseList := by
  simp only [addToParse]
  split
  · exact List.prefix_refl _
  · exact ⟨[normalize q], rfl⟩

/-- Folded `addToParse` calls only append to the worklist. -/
theorem foldl_addToParse_list_isPrefix (l : List PathC) (g : PathC → PathC) :
    ∀ st : PassState, st.cppFileToParseList <+: (l.foldl (fun s d => addToParse s (g d)) st).cppFileToParseList := by
  induction l with
  | nil => intro st; exact List.prefix_refl _
  | cons d ds ih =>
    intro st
    simp only [List.foldl_cons]
    exact (addToParse_list_isPrefix st (g d)).trans (ih _)

/-- Variant of `addToParse_list_isPrefix` with the initial worklist
abstracted, for use under structure updates. -/
theorem addToParse_list_isPrefix2 (st : PassState) (q : PathC) (l : List PathC)
    (h : st.cppFileToParseList = l) : l <+: (addToParse st q).cppFileToParseList := by
  rw [← h]
  exact addToParse_list_isPrefix st q

/-- Variant of `foldl_addToParse_list_isPrefix` with the initial
worklist abstracted. -/
theorem foldl_addToParse_list_isPrefix2 (ds : List PathC) (g : PathC → PathC) (st : PassState)
    (l : List PathC) (h : st.cppFileToParseList = l) :
    l <+: (ds.foldl (fun s d => addToParse s (g d)) st).cppFileToParseList := by
  rw [← h]
  exact foldl_addToParse_list_isPrefix ds g st

/-- Membership of the worklist set after `addToParse`. -/
theorem addToParse_set_iff (st : PassState) (q p : PathC) :
    p ∈ (addToParse st q).cppFileToParseSet ↔ p = normalize q ∨ p ∈ st.cppFileToParseSet := by
  simp only [addToParse]
  split
  · rename_i hc
    have hc2 : normalize q ∈ st.cppFileToParseSet := by
      have := hc
      simp only [List.contains, List.elem_eq_mem, decide_eq_true_eq] at this
      exact this
    constructor
    · exact Or.inr
    · rintro (rfl | hp)
      · exact hc2
      · exact hp
  · simp [List.mem_cons]

/-- Processing an include occurrence never touches the invalid-path
set. -/
theorem processInclude_invalid (fs : FileSystem) (pool : List (String × PathC))
    (fp : PathC) (idx : Nat) (incl : String) (st : PassState) :
    (processInclude fs pool fp idx incl st).result.invalidPathSet = st.result.invalidPathSet := by
  simp only [processInclude]
  split
  · rw [addToParse_result]
  · split
    · rfl
    · split
      · split
        · rw [addToParse_result]
        · rw [foldl_addToParse_result]
      · split
        · rw [addToParse_result]
        · rfl

/-- Processing an include occurrence only appends to the worklist. -/
theorem processInclude_list_isPrefix (fs : FileSystem) (pool : List (String × PathC))
    (fp : PathC) (idx : Nat) (incl : String) (st : PassState) :
    st.cppFileToParseList <+: (processInclude fs pool fp idx incl st).cppFileToParseList := by
  simp only [processInclude]
  split
  · exact addToParse_list_isPrefix st _
  · split
    · exact List.prefix_refl _
    · split
      · split
        · exact addToParse_list_isPrefix2 _ _ _ rfl
        · exact foldl_addToParse_list_isPrefix2 _ _ _ _ rfl
      · split
        · exact addToParse_list_isPrefix st _
        · exact List.prefix_refl _

/-- Processing an include occurrence only grows the resolved-directory
set. -/
theorem processInclude_resolveSet_mono (fs : FileSystem) (pool : List (String × PathC))
    (fp : PathC) (idx : Nat) (incl : String) (st : PassState) (x : PathC)
    (hx : x ∈ st.result.resolveIncludeFolderSet) :
    x ∈ (processInclude fs pool fp idx incl st).result.resolveIncludeFolderSet := by
  simp only [processInclude]
  split
  · rw [addToParse_result]; exact hx
  · split
    · exact hx
    · split
      · split
        · rw [addToParse_result]
          exact mem_insertPathSorted.mpr (Or.inr hx)
        · rw [foldl_addToParse_result]
          exact hx
      · split
        · rw [addToParse_result]; exact hx
        · exact hx

/-- An element at a position where a drop starts. -/
theorem get?_of_drop_cons {α : Type} : ∀ {xs : List α} {k : Nat} {a : α} {t : List α},
    xs.drop k = a :: t → xs.get? k = some a := by
  intro xs
  induction xs with
  | nil =>
    intro k a t h
    rw [List.drop_nil] at h
    cases h
  | cons x xs ih =>
    intro k a t h
    cases k with
    | zero =>
      have h2 : x :: xs = a :: t := h
      injection h2 with h3 h4
      rw [h3]
      rfl
    | succ n =>
      have h2 : xs.drop n = a :: t := h
      exact ih h2

/-- The generic preservation scheme for the per-file line scan: any
state property closed under include-occurrence processing (with the
occurrence really present on the scanned line) survives the scan. -/
theorem processLinesFrom_pres (fs : FileSystem) (pool : List (String × PathC)) (fp : PathC)
    (P : PassState → Prop)
    (hstep : ∀ idx incl st, occAt fs fp idx = some incl → P st → P (processInclude fs pool fp idx incl st)) :
    ∀ (ls : List String) (k : Nat) (st : PassState),
      ls = (fs.readLines fp).drop k → P st → P (processLinesFrom fs pool fp ls (k + 1) st) := by
  intro ls
  induction ls with
  | nil =>
    intro k st _ hP
    exact hP
  | cons l ls ih =>
    intro k st hdrop hP
    have hline : (fs.readLines fp).get? k = some l := get?_of_drop_cons hdrop.symm
    have hnext : ls = (fs.readLines fp).drop (k + 1) := by
      rw [← List.tail_drop, ← hdrop]
      rfl
    show P (processLinesFrom fs pool fp ls (k + 1 + 1) (processLine fs pool fp (k + 1) l st))
    apply ih (k + 1) _ hnext
    simp only [processLine]
    cases hpd : parseIncludeDirective l with
    | none =>
      exact hP
    | some incl2 =>
      have hocc : occAt fs fp (k + 1) = some incl2 := by
        unfold occAt
        rw [Nat.add_sub_cancel, hline]
        exact hpd
      exact hstep (k + 1) incl2 st hocc hP

/-- Preservation of a step-closed property by a whole file scan. -/
theorem processFile_pres (fs : FileSystem) (pool : List (String × PathC))
    (P : PassState → Prop)
    (hstep : ∀ fp idx incl st, occAt fs fp idx = some incl → P st → P (processInclude fs pool fp idx incl st)) :
    ∀ (fp : PathC) (st : PassState), P st → P (processFile fs pool st fp) := by
  intro fp st hP
  exact processLinesFrom_pres fs pool fp P (hstep fp) (fs.readLines fp) 0 st (by rfl) hP

/-- Preservation of a step-closed property by the whole worklist
loop. -/
theorem parseLoop_pres {σ : Type} (fs : FileSystem) (pool : List (String × PathC))
    (cb : Nat → Nat → PathC → σ → σ) (P : PassState → Prop)
    (hstep : ∀ fp idx incl st, occAt fs fp idx = some incl → P st → P (processInclude fs pool fp idx incl st)) :
    ∀ (fuel i : Nat) (st : PassState) (s : σ), P st → P (parseLoop fs pool cb fuel i st s).1 := by
  intro fuel
  induction fuel with
  | zero =>
    intro i st s hP
    exact hP
  | succ n ih =>
    intro i st s hP
    simp only [parseLoop]
    split
    · exact ih _ _ _ (processFile_pres fs pool P hstep _ st hP)
    · exact hP

/-- A successful exact lookup means the path is a stored key. -/
theorem lookupNode_mem_allKeys {fs : FileSystem} {p : PathC} {n : FSNode} :
    fs.lookupNode p = some n → p ∈ fs.allKeys := by
  intro h
  have h2 : (fs.entries.lookup p).isSome := by
    rw [FileSystem.lookupNode] at h
    rw [h]
    rfl
  rw [List.lookup_isSome_iff] at h2
  obtain ⟨e, he, heq⟩ := h2
  rw [beq_iff_eq] at heq
  rw [FileSystem.allKeys]
  exact heq ▸ List.mem_map_of_mem Prod.fst he

/-- Invalid paths are unchanged by the whole worklist loop. -/
theorem parseLoop_invalidEq {σ : Type} (fs : FileSystem) (pool : List (String × PathC))
    (cb : Nat → Nat → PathC → σ → σ) (fuel i : Nat) (st : PassState) (s : σ) :
    (parseLoop fs pool cb fuel i st s).1.result.invalidPathSet = st.result.invalidPathSet :=
  parseLoop_pres fs pool cb (fun st2 => st2.result.invalidPathSet = st.result.invalidPathSet)
    (fun fp idx incl st2 _ h2 => (processInclude_invalid fs pool fp idx incl st2).trans h2)
    fuel i st s rfl

/-- The worklist loop only appends to the worklist. -/
theorem parseLoop_list_isPrefix {σ : Type} (fs : FileSystem) (pool : List (String × PathC))
    (cb : Nat → Nat → PathC → σ → σ) (fuel i : Nat) (st : PassState) (s : σ) :
    st.cppFileToParseList <+: (parseLoop fs pool cb fuel i st s).1.cppFileToParseList :=
  parseLoop_pres fs pool cb (fun st2 => st.cppFileToParseList <+: st2.cppFileToParseList)
    (fun fp idx incl st2 _ h2 => h2.trans (processInclude_list_isPrefix fs pool fp idx incl st2))
    fuel i st s (List.prefix_refl _)

/-- The worklist loop only grows the resolved-directory set. -/
theorem parseLoop_resolveSet_mono {σ : Type} (fs : FileSystem) (pool : List (String × PathC))
    (cb : Nat → Nat → PathC → σ → σ) (fuel i : Nat) (st : PassState) (s : σ) (x : PathC)
    (hx : x ∈ st.result.resolveIncludeFolderSet) :
    x ∈ (parseLoop fs pool cb fuel i st s).1.result.resolveIncludeFolderSet :=
  parseLoop_pres fs pool cb (fun st2 => x ∈ st2.result.resolveIncludeFolderSet)
    (fun fp idx incl st2 _ h2 => processInclude_resolveSet_mono fs pool fp idx incl st2 x h2)
    fuel i st s hx

/-- Reconstruction of a pool file from a matching candidate prefix:
the prefix directory joined with the include components is the pool
file itself. -/
theorem bEndWithPath_reconstruct {s sfx : PathC} (h : bEndWithPath s sfx = true) :
    s.take (s.length - sfx.length) ++ sfx = s := by
  unfold bEndWithPath at h
  split at h
  · cases h
  · rw [beq_iff_eq] at h
    conv_rhs => rw [← List.take_append_drop (s.length - sfx.length) s]
    rw [h]

/-- Generic membership in a fold that conditionally inserts into an
ordered path set. -/
theorem mem_foldl_insertPathSorted {β : Type} :
    ∀ (l : List β) (acc : List PathC) (x : PathC) (cond : β → Bool) (f : β → PathC),
    x ∈ l.foldl (fun acc2 e => if cond e then insertPathSorted (f e) acc2 else acc2) acc →
    x ∈ acc ∨ ∃ e ∈ l, cond e = true ∧ x = f e := by
  intro l
  induction l with
  | nil =>
    intro acc x cond f hx
    exact Or.inl hx
  | cons e es ih =>
    intro acc x cond f hx
    simp only [List.foldl_cons] at hx
    rcases ih _ x cond f hx with h2 | h2
    · by_cases hc : cond e = true
      · rw [if_pos hc] at h2
        rcases mem_insertPathSorted.mp h2 with h3 | h3
        · exact Or.inr ⟨e, List.mem_cons_self e es, hc, h3⟩
        · exact Or.inl h3
      · rw [if_neg hc] at h2
        exact Or.inl h2
    · obtain ⟨e2, he2, hce2, hxe2⟩ := h2
      exact Or.inr ⟨e2, List.mem_cons_of_mem e he2, hce2, hxe2⟩

/-- Every candidate directory produced by `findInclude` is the prefix
of a matching pool file. -/
theorem findInclude_mem {pool : List (String × PathC)} {incl : String} {x : PathC}
    (hx : x ∈ findInclude pool incl) :
    ∃ e ∈ pool, bEndWithPath e.2 (splitPath incl) = true ∧
      x = e.2.take (e.2.length - (splitPath incl).length) := by
  simp only [findInclude] at hx
  rcases mem_foldl_insertPathSorted _ _ _ _ _ hx with h2 | h2
  · cases h2
  · obtain ⟨e, he, hce, hxe⟩ := h2
    exact ⟨e, (List.mem_filter.mp he).1, hce, hxe⟩

/-- A candidate directory joined with the include text is a stored
pool file. -/
theorem findInclude_file_mem {fs : FileSystem} {pool : List (String × PathC)}
    {incl : String} {x : PathC} (hPO : PoolOK fs pool) (hx : x ∈ findInclude pool incl) :
    x ++ splitPath incl ∈ fs.allKeys ∧ normalize (x ++ splitPath incl) = x ++ splitPath incl := by
  obtain ⟨e, he, hbe, hxe⟩ := findInclude_mem hx
  have hrec := bEndWithPath_reconstruct hbe
  rw [hxe, hrec]
  exact ⟨(hPO e he).1, (hPO e he).2⟩

/-- A known-directory fallback hit names an existing path. -/
theorem findProjectInclude_exists {fs : FileSystem} {incl : String} :
    ∀ {l : List PathC} {f : PathC},
    findProjectInclude fs l incl = some f → fs.existsPath f = true := by
  intro l
  induction l with
  | nil =>
    intro f h
    cases h
  | cons d ds ih =>
    intro f h
    rw [findProjectInclude, List.findSome?_cons] at h
    by_cases he : fs.existsPath (d ++ splitPath incl) = true
    · rw [if_pos he] at h
      cases h
      exact he
    · rw [if_neg he] at h
      exact ih h

/-- The known-directory fallback returns the join with the first
stored directory whose join exists. -/
theorem findProjectInclude_eq_find? (fs : FileSystem) (incl : String) :
    ∀ l : List PathC,
    findProjectInclude fs l incl =
      (l.find? (fun d => fs.existsPath (d ++ splitPath incl))).map
        (fun d => d ++ splitPath incl) := by
  intro l
  induction l with
  | nil => rfl
  | cons d ds ih =>
    rw [findProjectInclude, List.findSome?_cons, List.find?_cons]
    by_cases he : fs.existsPath (d ++ splitPath incl) = true
    · rw [if_pos he, he]
      rfl
    · rw [if_neg he]
      rw [Bool.not_eq_true] at he
      rw [he]
      exact ih

/-- Bool-level membership test on path lists. -/
theorem contains_true_iff_mem {l : List PathC} {q : PathC} :
    l.contains q = true ↔ q ∈ l := by
  simp [List.contains, List.elem_eq_mem]

/-- The seed membership set holds exactly the seed paths. -/
theorem mem_seedSet {seeds : List PathC} {p : PathC} :
    p ∈ seedSet seeds ↔ p ∈ seeds := by
  have hgen : ∀ (l acc : List PathC) (p2 : PathC),
      p2 ∈ l.foldl (fun s q => if s.contains q then s else q :: s) acc ↔ p2 ∈ acc ∨ p2 ∈ l := by
    intro l
    induction l with
    | nil => simp
    | cons q qs ih =>
      intro acc p2
      simp only [List.foldl_cons]
      rw [ih]
      by_cases hc : acc.contains q = true
      · rw [if_pos hc]
        have hq : q ∈ acc := contains_true_iff_mem.mp hc
        simp only [List.mem_cons]
        constructor
        · rintro (h2 | h2)
          · exact Or.inl h2
          · exact Or.inr (Or.inr h2)
        · rintro (h2 | h2 | h2)
          · exact Or.inl h2
          · exact Or.inl (h2 ▸ hq)
          · exact Or.inr h2
      · rw [if_neg hc]
        simp only [List.mem_cons]
        tauto
  rw [seedSet.eq_def, hgen]
  simp

/-- `directory_iterator` succeeds exactly on existing directories. -/
theorem updateCppFileList_isSome (fs : FileSystem) (f : PathC) :
    (updateCppFileList fs f).isSome = fs.isDirPath f := by
  simp only [updateCppFileList, FileSystem.isDirPath]
  cases h : fs.lookupNode (normalize f) with
  | none => rfl
  | some n => cases hn : n.isDir <;> simp [hn]

/-- Seeding succeeds when every parse folder is an existing
directory. -/
theorem collectCppFiles_some (fs : FileSystem) :
    ∀ l : List PathC, (∀ f ∈ l, fs.isDirPath f = true) →
    ∃ files, collectCppFiles fs l = some files := by
  intro l
  induction l with
  | nil => exact fun _ => ⟨[], rfl⟩
  | cons f fl ih =>
    intro h
    have h1 : (updateCppFileList fs f).isSome = true := by
      rw [updateCppFileList_isSome]
      exact h f (List.mem_cons_self f fl)
    obtain ⟨files, hfiles⟩ := Option.isSome_iff_exists.mp h1
    obtain ⟨more, hmore⟩ := ih (fun f2 hf2 => h f2 (List.mem_cons_of_mem f hf2))
    exact ⟨files ++ more, by rw [collectCppFiles, hfiles, hmore]⟩

/-- The include-folder scan: conflict map and unresolved set are left
alone, invalid paths only grow, and every missing folder is recorded
invalid. -/
theorem scanIncludeFolders_props (fs : FileSystem) :
    ∀ (l : List PathC) (r : IncludeResolverResult),
    (scanIncludeFolders fs l r).conflictedIncludeMap = r.conflictedIncludeMap ∧
    (scanIncludeFolders fs l r).unresolvedIncludeSet = r.unresolvedIncludeSet ∧
    (∀ x, x ∈ r.invalidPathSet → x ∈ (scanIncludeFolders fs l r).invalidPathSet) ∧
    (∀ f ∈ l, fs.existsPath f = false → f ∈ (scanIncludeFolders fs l r).invalidPathSet) := by
  intro l
  induction l with
  | nil =>
    intro r
    exact ⟨rfl, rfl, fun x hx => hx, fun f hf => absurd hf (List.not_mem_nil f)⟩
  | cons f fl ih =>
    intro r
    rw [scanIncludeFolders]
    by_cases he : fs.existsPath f = true
    · rw [if_pos he]
      refine ⟨(ih _).1, (ih _).2.1, fun x hx => (ih _).2.2.1 x hx, ?_⟩
      intro f2 hf2 hne
      rcases List.mem_cons.mp hf2 with rfl | hf2
      · rw [he] at hne
        cases hne
      · exact (ih _).2.2.2 f2 hf2 hne
    · rw [if_neg he]
      refine ⟨(ih _).1, (ih _).2.1, ?_, ?_⟩
      · intro x hx
        exact (ih _).2.2.1 x (mem_insertPathSorted.mpr (Or.inr hx))
      · intro f2 hf2 hne
        rcases List.mem_cons.mp hf2 with rfl | hf2
        · exact (ih _).2.2.1 f2 (mem_insertPathSorted.mpr (Or.inl rfl))
        · exact (ih _).2.2.2 f2 hf2 hne

/-- The resolve-folder scan: succeeds when every existing entry is a
directory; conflict map, unresolved set and resolved-directory set are
left alone, invalid paths only grow, and every missing folder is
recorded invalid. -/
theorem scanResolveFolders_props (fs : FileSystem) :
    ∀ (l : List PathC) (r : IncludeResolverResult),
    (∀ f ∈ l, fs.existsPath f = true → fs.isDirPath f = true) →
    ∃ files r2, scanResolveFolders fs l r = some (files, r2) ∧
      r2.conflictedIncludeMap = r.conflictedIncludeMap ∧
      r2.unresolvedIncludeSet = r.unresolvedIncludeSet ∧
      r2.resolveIncludeFolderSet = r.resolveIncludeFolderSet ∧
      (∀ x, x ∈ r.invalidPathSet → x ∈ r2.invalidPathSet) ∧
      (∀ f ∈ l, fs.existsPath f = false → f ∈ r2.invalidPathSet) := by
  intro l
  induction l with
  | nil =>
    intro r _
    exact ⟨[], r, rfl, rfl, rfl, rfl, fun x hx => hx, fun f hf => absurd hf (List.not_mem_nil f)⟩
  | cons f fl ih =>
    intro r h
    rw [scanResolveFolders]
    by_cases he : fs.existsPath f = true
    · rw [if_pos he]
      have hdir : fs.isDirPath f = true := h f (List.mem_cons_self f fl) he
      have h1 : (updateCppFileList fs f).isSome = true := by
        rw [updateCppFileList_isSome]
        exact hdir
      obtain ⟨files, hfiles⟩ := Option.isSome_iff_exists.mp h1
      obtain ⟨more, r2, hrec, hm, hu, hrs, hmono, hmem⟩ :=
        ih r (fun f2 hf2 => h f2 (List.mem_cons_of_mem f hf2))
      rw [hfiles, hrec]
      refine ⟨files ++ more, r2, rfl, hm, hu, hrs, hmono, ?_⟩
      intro f2 hf2 hne
      rcases List.mem_cons.mp hf2 with rfl | hf2
      · rw [he] at hne
        cases hne
      · exact hmem f2 hf2 hne
    · rw [if_neg he]
      obtain ⟨more, r2, hrec, hm, hu, hrs, hmono, hmem⟩ :=
        ih { r with invalidPathSet := insertPathSorted f r.invalidPathSet }
          (fun f2 hf2 => h f2 (List.mem_cons_of_mem f hf2))
      rw [hrec]
      refine ⟨more, r2, rfl, hm, hu, hrs, ?_, ?_⟩
      · intro x hx
        exact hmono x (mem_insertPathSorted.mpr (Or.inr hx))
      · intro f2 hf2 hne
        rcases List.mem_cons.mp hf2 with rfl | hf2
        · exact hmono f2 (mem_insertPathSorted.mpr (Or.inl rfl))
        · exact hmem f2 hf2 hne

/-- `addToParse` preserves the worklist invariant when the added path
canonicalizes to a stored key. -/
theorem addToParse_worklistInv {fs : FileSystem} {seeds : List PathC} {st : PassState} {q : PathC}
    (hq : normalize q ∈ fs.allKeys) (h : WorklistInv fs seeds st) :
    WorklistInv fs seeds (addToParse st q) := by
  obtain ⟨hmem, tail, hlist, hnd, hdisj, hkeys⟩ := h
  by_cases hc : st.cppFileToParseSet.contains (normalize q) = true
  · have heq : addToParse st q = st := by
      simp only [addToParse]
      rw [if_pos hc]
    rw [heq]
    exact ⟨hmem, tail, hlist, hnd, hdisj, hkeys⟩
  · have heq : addToParse st q =
      { st with cppFileToParseSet := normalize q :: st.cppFileToParseSet
                cppFileToParseList := st.cppFileToParseList ++ [normalize q] } := by
      simp only [addToParse]
      rw [if_neg hc]
    rw [heq]
    have hnotmem : normalize q ∉ st.cppFileToParseList := by
      intro hmem2
      exact hc (contains_true_iff_mem.mpr ((hmem _).mpr hmem2))
    refine ⟨?_, tail ++ [normalize q], ?_, ?_, ?_, ?_⟩
    · intro p
      simp only [List.mem_cons, List.mem_append, List.mem_singleton]
      rw [hmem p]
      tauto
    · rw [hlist, List.append_assoc]
    · refine List.Nodup.append hnd (List.nodup_singleton _) ?_
      intro a ha hb
      rw [List.mem_singleton] at hb
      subst hb
      exact hnotmem (by rw [hlist]; exact List.mem_append_right _ ha)
    · intro p hp
      rcases List.mem_append.mp hp with hp | hp
      · exact hdisj p hp
      · rw [List.mem_singleton] at hp
        subst hp
        intro hseed
        exact hnotmem (by rw [hlist]; exact List.mem_append_left _ hseed)
    · intro p hp
      rcases List.mem_append.mp hp with hp | hp
      · exact hkeys p hp
      · rw [List.mem_singleton] at hp
        subst hp
        exact hq

/-- Folded `addToParse` calls preserve the worklist invariant. -/
theorem foldl_addToParse_worklistInv {fs : FileSystem} {seeds : List PathC}
    (ds : List PathC) (g : PathC → PathC)
    (hall : ∀ d ∈ ds, normalize (g d) ∈ fs.allKeys) :
    ∀ st : PassState, WorklistInv fs seeds st →
      WorklistInv fs seeds (ds.foldl (fun s d => addToParse s (g d)) st) := by
  induction ds with
  | nil =>
    intro st h
    exact h
  | cons d ds ih =>
    intro st h
    simp only [List.foldl_cons]
    exact ih (fun d2 hd2 => hall d2 (List.mem_cons_of_mem d hd2)) _
      (addToParse_worklistInv (hall d (List.mem_cons_self d ds)) h)

/-- Processing one include occurrence preserves the worklist
invariant on a wellformed pool. -/
theorem processInclude_worklistInv {fs : FileSystem} {pool : List (String × PathC)}
    {seeds : List PathC} (hPO : PoolOK fs pool)
    (fp : PathC) (idx : Nat) (incl : String) (st : PassState)
    (h : WorklistInv fs seeds st) :
    WorklistInv fs seeds (processInclude fs pool fp idx incl st) := by
  simp only [processInclude]
  split
  · rename_i hex
    apply addToParse_worklistInv _ h
    rw [FileSystem.existsPath] at hex
    obtain ⟨n, hn⟩ := Option.isSome_iff_exists.mp hex
    exact lookupNode_mem_allKeys hn
  · split
    · exact ⟨h.1, h.2⟩
    · split
      · rename_i hne
        split
        · have hd : (findInclude pool incl).headD [] ∈ findInclude pool incl := by
            cases hfi : findInclude pool incl with
            | nil => exact absurd hfi hne
            | cons a l =>
              exact List.mem_cons_self a l
          have hkey := findInclude_file_mem hPO hd
          refine addToParse_worklistInv ?_ ⟨h.1, h.2⟩
          rw [hkey.2]
          exact hkey.1
        · refine foldl_addToParse_worklistInv _ _ ?_ _ ⟨h.1, h.2⟩
          intro d hd
          have hkey := findInclude_file_mem hPO hd
          rw [hkey.2]
          exact hkey.1
      · split
        · rename_i hf
          apply addToParse_worklistInv _ h
          have hex := findProjectInclude_exists hf
          rw [FileSystem.existsPath] at hex
          obtain ⟨n, hn⟩ := Option.isSome_iff_exists.mp hex
          exact lookupNode_mem_allKeys hn
        · exact ⟨h.1, h.2⟩

/-- The worklist length never exceeds the seeds plus the stored
paths. -/
theorem worklistInv_length_le {fs : FileSystem} {seeds : List PathC} {st : PassState}
    (h : WorklistInv fs seeds st) :
    st.cppFileToParseList.length ≤ seeds.length + fs.allKeys.length := by
  obtain ⟨-, tail, hlist, hnd, -, hkeys⟩ := h
  rw [hlist, List.length_append]
  have h2 : tail.length ≤ fs.allKeys.length :=
    (List.subperm_of_subset hnd (fun x hx => hkeys x hx)).length_le
  omega

/-- One extra unit of fuel changes nothing once the loop is past the
bound implied by the worklist invariant. -/
theorem parseLoop_fuel_succ {σ : Type} {fs : FileSystem} {pool : List (String × PathC)}
    {seeds : List PathC} (cb : Nat → Nat → PathC → σ → σ) (hPO : PoolOK fs pool) :
    ∀ (fuel i : Nat) (st : PassState) (s : σ), WorklistInv fs seeds st →
      fs.allKeys.length + seeds.length < i + fuel →
      parseLoop fs pool cb (fuel + 1) i st s = parseLoop fs pool cb fuel i st s := by
  intro fuel
  induction fuel with
  | zero =>
    intro i st s hInv hbound
    have hlen := worklistInv_length_le hInv
    have hnlt : ¬ i < st.cppFileToParseList.length := by omega
    simp only [parseLoop]
    rw [dif_neg hnlt]
  | succ n ih =>
    intro i st s hInv hbound
    by_cases hlt : i < st.cppFileToParseList.length
    · show parseLoop fs pool cb (n + 1 + 1) i st s = parseLoop fs pool cb (n + 1) i st s
      simp only [parseLoop]
      rw [dif_pos hlt, dif_pos hlt]
      have hInv2 : WorklistInv fs seeds (processFile fs pool st (st.cppFileToParseList.get ⟨i, hlt⟩)) :=
        processFile_pres fs pool (WorklistInv fs seeds)
          (fun fp idx incl st2 _ h2 => processInclude_worklistInv hPO fp idx incl st2 h2) _ st hInv
      exact ih (i + 1) _ _ hInv2 (by omega)
    · simp only [parseLoop]
      rw [dif_neg hlt, dif_neg hlt]

/-- Any fuel beyond `fuelOf` is irrelevant: the loop has terminated by
then. -/
theorem parseLoop_fuel_add {σ : Type} {fs : FileSystem} {pool : List (String × PathC)}
    {seeds : List PathC} (cb : Nat → Nat → PathC → σ → σ) (hPO : PoolOK fs pool)
    (st : PassState) (s : σ) (hInv : WorklistInv fs seeds st) :
    ∀ k : Nat, parseLoop fs pool cb (fuelOf fs seeds + k) 0 st s =
      parseLoop fs pool cb (fuelOf fs seeds) 0 st s := by
  intro k
  induction k with
  | zero => rfl
  | succ n ih =>
    rw [← ih]
    show parseLoop fs pool cb ((fuelOf fs seeds + n) + 1) 0 st s = _
    exact parseLoop_fuel_succ cb hPO (fuelOf fs seeds + n) 0 st s hInv
      (by simp only [fuelOf]; omega)

/-- The initial pass state satisfies the worklist invariant. -/
theorem initialState_worklistInv (fs : FileSystem) (seeds : List PathC) (r0 : IncludeResolverResult) :
    WorklistInv fs seeds (initialStateOf seeds r0) := by
  refine ⟨fun p => mem_seedSet, [], by simp [initialStateOf], List.nodup_nil, ?_, ?_⟩
  · intro p hp
    cases hp
  · intro p hp
    cases hp

/-- Walk results are stored keys. -/
theorem updateCppFileList_sub {fs : FileSystem} {f : PathC} {files : List PathC}
    (h : updateCppFileList fs f = some files) : ∀ p ∈ files, p ∈ fs.allKeys := by
  simp only [updateCppFileList] at h
  split at h
  · split at h
    · injection h with h2
      intro p hp
      rw [← h2] at hp
      rw [List.mem_map] at hp
      obtain ⟨e, he, rfl⟩ := hp
      exact List.mem_map_of_mem Prod.fst (List.mem_of_mem_filter he)
    · cases h
  · cases h

/-- The resolve-file list collected by the resolve-folder scan is a
list of stored keys. -/
theorem scanResolveFolders_files_sub {fs : FileSystem} :
    ∀ (l : List PathC) (r : IncludeResolverResult) (files : List PathC) (r2 : IncludeResolverResult),
    scanResolveFolders fs l r = some (files, r2) → ∀ p ∈ files, p ∈ fs.allKeys := by
  intro l
  induction l with
  | nil =>
    intro r files r2 h p hp
    injection h with h2
    injection h2 with h3 h4
    rw [← h3] at hp
    cases hp
  | cons f fl ih =>
    intro r files r2 h p hp
    rw [scanResolveFolders] at h
    by_cases he : fs.existsPath f = true
    · rw [if_pos he] at h
      cases hu : updateCppFileList fs f with
      | none =>
        rw [hu] at h
        cases h
      | some files1 =>
        rw [hu] at h
        cases hrec : scanResolveFolders fs fl r with
        | none =>
          rw [hrec] at h
          cases h
        | some pr =>
          rw [hrec] at h
          injection h with h2
          have h3 : files1 ++ pr.1 = files := congrArg Prod.fst h2
          rw [← h3] at hp
          rcases List.mem_append.mp hp with hp | hp
          · exact updateCppFileList_sub hu p hp
          · exact ih r pr.1 pr.2 (by rw [hrec]) p hp
    · rw [if_neg he] at h
      exact ih _ files r2 h p hp

/-- Keys of a wellformed filesystem are normal forms. -/
theorem wf_normalize {fs : FileSystem} {p : PathC} (hwf : fs.wf = true)
    (hp : p ∈ fs.allKeys) : normalize p = p := by
  rw [FileSystem.wf, List.all_eq_true] at hwf
  rw [FileSystem.allKeys, List.mem_map] at hp
  obtain ⟨e, he, rfl⟩ := hp
  have h2 := hwf e he
  rwa [beq_iff_eq] at h2

/-- The pool built from the resolve-folder scan is wellformed on a
wellformed filesystem. -/
theorem poolOK_of_scan {fs : FileSystem} {l : List PathC} {r : IncludeResolverResult}
    {files : List PathC} {r2 : IncludeResolverResult} (hwf : fs.wf = true)
    (hscan : scanResolveFolders fs l r = some (files, r2)) :
    PoolOK fs (buildResolveFileMultiMap files) := by
  intro e he
  simp only [buildResolveFileMultiMap, List.mem_map] at he
  obtain ⟨f, hf, rfl⟩ := he
  have hkey := scanResolveFolders_files_sub l r files r2 hscan f hf
  exact ⟨hkey, wf_normalize hwf hkey⟩

/-- Processing one include occurrence preserves the result
invariant, provided the occurrence really is on its line. -/
theorem processInclude_resultInv {fs : FileSystem} {pool : List (String × PathC)}
    {fp : PathC} {idx : Nat} {incl : String} {st : PassState}
    (hocc : occAt fs fp idx = some incl) (h : ResultInv fs pool st.result) :
    ResultInv fs pool (processInclude fs pool fp idx incl st).result := by
  obtain ⟨hkeys, hconf, hunres⟩ := h
  simp only [processInclude]
  split
  · rw [addToParse_result]
    exact ⟨hkeys, hconf, hunres⟩
  · split
    · refine ⟨?_, ?_, hunres⟩
      · rw [conflictAppendLoc_keys]
        exact hkeys
      · intro e2 he2
        obtain ⟨e, he, hcase⟩ := mem_conflictAppendLoc he2
        rcases hcase with heq | ⟨het, heq⟩
        · rw [heq]
          exact hconf e he
        · obtain ⟨hdirs, hlen, hne2, hloc⟩ := hconf e he
          rw [heq]
          refine ⟨hdirs, hlen, insertLocSorted_ne_nil _ _, ?_⟩
          intro loc hlocmem
          rcases mem_insertLocSorted.mp hlocmem with rfl | hlocmem
          · rw [het]
            exact hocc
          · exact hloc loc hlocmem
    · rename_i hlooknone
      split
      · rename_i hne
        split
        · rw [addToParse_result]
          exact ⟨hkeys, hconf, hunres⟩
        · rename_i hlennot1
          rw [foldl_addToParse_result]
          have hnotkey : ∀ e ∈ st.result.conflictedIncludeMap, incl ≠ e.1 := by
            intro e he
            have h2 := List.lookup_eq_none_iff.mp hlooknone e he
            rwa [bne_iff_ne] at h2
          refine ⟨?_, ?_, hunres⟩
          · rw [List.map_append]
            refine List.Nodup.append hkeys (List.nodup_singleton _) ?_
            intro a ha hb
            simp only [List.map_cons, List.map_nil, List.mem_singleton] at hb
            subst hb
            rw [List.mem_map] at ha
            obtain ⟨e, he, hfst⟩ := ha
            exact hnotkey e he hfst.symm
          · intro e2 he2
            rcases List.mem_append.mp he2 with he2 | he2
            · exact hconf e2 he2
            · rw [List.mem_singleton] at he2
              subst he2
              have hlen2 : 2 ≤ (findInclude pool incl).length := by
                have hz : (findInclude pool incl).length ≠ 0 := by
                  intro h0
                  exact hne (List.length_eq_zero.mp h0)
                have ho : (findInclude pool incl).length ≠ 1 := by
                  intro h1
                  rw [h1] at hlennot1
                  exact hlennot1 rfl
                omega
              refine ⟨rfl, hlen2, by simp, ?_⟩
              intro loc hloc
              rw [List.mem_singleton] at hloc
              subst hloc
              exact hocc
      · rename_i hfiempty
        split
        · rw [addToParse_result]
          exact ⟨hkeys, hconf, hunres⟩
        · refine ⟨hkeys, hconf, ?_⟩
          intro u hu
          rcases mem_insertUnresolvedSorted hu with rfl | hu2
          · refine ⟨hocc, ?_⟩
            exact not_not.mp hfiempty
          · exact hunres u hu2

/-- The result invariant survives the whole worklist loop. -/
theorem parseLoop_resultInv {σ : Type} (fs : FileSystem) (pool : List (String × PathC))
    (cb : Nat → Nat → PathC → σ → σ) (fuel i : Nat) (st : PassState) (s : σ)
    (h : ResultInv fs pool st.result) :
    ResultInv fs pool (parseLoop fs pool cb fuel i st s).1.result :=
  parseLoop_pres fs pool cb (fun st2 => ResultInv fs pool st2.result)
    (fun _ _ _ _ hocc h2 => processInclude_resultInv hocc h2) fuel i st s h

/-- A successful resolve-folder scan changes nothing but the invalid
set and the collected file list. -/
theorem scanResolveFolders_some_const (fs : FileSystem) :
    ∀ (l : List PathC) (r : IncludeResolverResult) (files : List PathC) (r2 : IncludeResolverResult),
    scanResolveFolders fs l r = some (files, r2) →
    r2.conflictedIncludeMap = r.conflictedIncludeMap ∧
    r2.unresolvedIncludeSet = r.unresolvedIncludeSet ∧
    r2.resolveIncludeFolderSet = r.resolveIncludeFolderSet := by
  intro l
  induction l with
  | nil =>
    intro r files r2 h
    injection h with h2
    have h3 : r = r2 := congrArg Prod.snd h2
    rw [← h3]
    exact ⟨rfl, rfl, rfl⟩
  | cons f fl ih =>
    intro r files r2 h
    rw [scanResolveFolders] at h
    by_cases he : fs.existsPath f = true
    · rw [if_pos he] at h
      cases hu : updateCppFileList fs f with
      | none =>
        rw [hu] at h
        cases h
      | some files1 =>
        rw [hu] at h
        cases hrec : scanResolveFolders fs fl r with
        | none =>
          rw [hrec] at h
          cases h
        | some pr =>
          rw [hrec] at h
          injection h with h2
          have h3 : pr.2 = r2 := congrArg Prod.snd h2
          rw [← h3]
          exact ih r pr.1 pr.2 (by rw [hrec])
    · rw [if_neg he] at h
      exact ih { r with invalidPathSet := insertPathSorted f r.invalidPathSet } files r2 h

/-- Master lemma: every successful run satisfies the result invariant
with respect to the resolve pool of that run. -/
theorem computeIncludeResolve_resultInv {fs : FileSystem} {stg : IncludeResolverSettings}
    {r : IncludeResolverResult} (h : computeIncludeResolve fs stg = some r) :
    ∃ pool, poolOf fs stg = some pool ∧ ResultInv fs pool r := by
  rw [computeIncludeResolve, computeIncludeResolveFull] at h
  cases hseeds : seedsOf fs stg with
  | none =>
    rw [hseeds] at h
    cases h
  | some seeds =>
    rw [hseeds] at h
    cases hscan : resolveScanOf fs stg with
    | none =>
      rw [hscan] at h
      cases h
    | some pr =>
      rw [hscan] at h
      simp only [Option.map_some'] at h
      injection h with h2
      refine ⟨buildResolveFileMultiMap pr.1, by rw [poolOf, hscan]; rfl, ?_⟩
      rw [← h2]
      apply parseLoop_resultInv
      have hinc := scanIncludeFolders_props fs stg.includeFolderList {}
      rw [resolveScanOf] at hscan
      have hconst := scanResolveFolders_some_const fs stg.resolveFolderList
        (scanIncludeFolders fs stg.includeFolderList {}) pr.1 pr.2 hscan
      show ResultInv fs (buildResolveFileMultiMap pr.1) pr.2
      refine ⟨?_, ?_, ?_⟩
      · rw [hconst.1, hinc.1]
        exact List.nodup_nil
      · intro e he
        rw [hconst.1, hinc.1] at he
        cases he
      · intro u hu
        rw [hconst.2.1, hinc.2.1] at hu
        cases hu

/-- Claim C1, counterexample: a configured parse directory that does
not exist on disk does not appear in the invalid-path set with the
pass completing normally; instead `directory_iterator` throws and the
whole pass aborts (modelled by `none`): `stgMissingParse` names the
parse folder `nope`, absent from `fsMal`. -/
theorem missingParseFolder_aborts :
    computeIncludeResolve fsMal stgMissingParse = none := by rfl

/-- Claim C1, amended: for the include and resolve directory lists,
every configured directory that does not exist on disk is recorded in
the invalid-path set and processing continues without a fatal error
(the pass returns a result); configured parse directories are excluded
from this guarantee, since the source walks them without an existence
check and a missing one aborts the pass. -/
theorem invalidFolders_recorded_nonfatal (fs : FileSystem) (stg : IncludeResolverSettings)
    (hparse : ∀ f ∈ stg.toParseFolderList, fs.isDirPath f = true)
    (hres : ∀ f ∈ stg.resolveFolderList, fs.existsPath f = true → fs.isDirPath f = true) :
    (computeIncludeResolve fs stg).isSome = true ∧
    ∀ r, computeIncludeResolve fs stg = some r →
      (∀ f ∈ stg.includeFolderList, fs.existsPath f = false → f ∈ r.invalidPathSet) ∧
      (∀ f ∈ stg.resolveFolderList, fs.existsPath f = false → f ∈ r.invalidPathSet) := by
  obtain ⟨seeds, hseeds⟩ := collectCppFiles_some fs _ hparse
  obtain ⟨files, r2, hscan, hm, hu, hrs, hmono, hmem⟩ :=
    scanResolveFolders_props fs _ (scanIncludeFolders fs stg.includeFolderList {}) hres
  have hinc := scanIncludeFolders_props fs stg.includeFolderList {}
  have hseeds2 : seedsOf fs stg = some seeds := hseeds
  have hscan2 : resolveScanOf fs stg = some (files, r2) := hscan
  constructor
  · rw [computeIncludeResolve, computeIncludeResolveFull, hseeds2, hscan2]
    rfl
  · intro r hr
    rw [computeIncludeResolve, computeIncludeResolveFull, hseeds2, hscan2] at hr
    simp only [Option.map_some'] at hr
    injection hr with hr2
    have hinv : r.invalidPathSet = r2.invalidPathSet := by
      rw [← hr2]
      exact parseLoop_invalidEq fs (buildResolveFileMultiMap files) _ (fuelOf fs seeds) 0
        (initialStateOf seeds r2) ()
    constructor
    · intro f hf hne
      rw [hinv]
      exact hmono f (hinc.2.2.2 f hf hne)
    · intro f hf hne
      rw [hinv]
      exact hmem f hf hne

/-- Witness for the amended claim C1 at a concrete input: parse folder
`p` exists, include folder `noinc` and resolve folder `nores` do not;
the pass completes and both are recorded invalid. -/
theorem invalidFolders_recorded_nonfatal_witness :
    (computeIncludeResolve fsMal stgInv).isSome = true ∧
    ["noinc"] ∈ rInvLit.invalidPathSet ∧ ["nores"] ∈ rInvLit.invalidPathSet := by
  have h := invalidFolders_recorded_nonfatal fsMal stgInv (by decide) (by decide)
  refine ⟨h.1, ?_, ?_⟩
  · exact (h.2 rInvLit (by rfl)).1 ["noinc"] (by decide) (by rfl)
  · exact (h.2 rInvLit (by rfl)).2 ["nores"] (by decide) (by rfl)

/-- Claim C2, counterexample: the line `#include "missing.h` of
`fsMal` has an opening delimiter but no closing delimiter, yet it is
not silently skipped: the scanner takes everything after the opening
delimiter as the include text and the occurrence is recorded as an
`UnresolvedInclude`, changing the result sets. -/
theorem malformedIncludeLine_not_skipped :
    bStartWith ("#include \"missing.h").data includeDirectiveChars = true ∧
    findCharFrom (("#include \"missing.h").data.drop includeDirectiveChars.length) ['"', '<'] 0 = some 0 ∧
    findCharFrom (("#include \"missing.h").data.drop includeDirectiveChars.length) ['"', '>'] 1 = none ∧
    computeIncludeResolve fsMal stgMal =
      some { invalidPathSet := []
             unresolvedIncludeSet := [⟨["p", "main.cpp"], 1, "missing.h"⟩]
             conflictedIncludeMap := []
             resolveIncludeFolderSet := [] } := by
  exact ⟨rfl, rfl, rfl, rfl⟩

/-- Claim C2, amended: a scanned line that begins with the include
directive marker and contains an opening delimiter at position `s`
(after the marker) but no closing delimiter after it is not skipped:
its include text is everything after the opening delimiter up to the
end of the line, and the occurrence is processed exactly like any
other include occurrence. -/
theorem malformedIncludeLine_parsed_to_rest (line : String) (s : Nat)
    (h1 : bStartWith line.data includeDirectiveChars = true)
    (h2 : findCharFrom (line.data.drop includeDirectiveChars.length) ['"', '<'] 0 = some s)
    (h3 : findCharFrom (line.data.drop includeDirectiveChars.length) ['"', '>'] (s + 1) = none) :
    parseIncludeDirective line =
      some (String.mk ((line.data.drop includeDirectiveChars.length).drop (s + 1))) ∧
    ∀ (fs : FileSystem) (pool : List (String × PathC)) (fp : PathC) (idx : Nat) (st : PassState),
      processLine fs pool fp idx line st =
        processInclude fs pool fp idx
          (String.mk ((line.data.drop includeDirectiveChars.length).drop (s + 1))) st := by
  have hp : parseIncludeDirective line =
      some (String.mk ((line.data.drop includeDirectiveChars.length).drop (s + 1))) := by
    simp only [parseIncludeDirective, h1, if_true, h2, h3]
    have hlen : (line.data.drop includeDirectiveChars.length).length - s - 1 =
        ((line.data.drop includeDirectiveChars.length).drop (s + 1)).length := by
      simp only [List.length_drop]
      omega
    rw [hlen, List.take_length]
  refine ⟨hp, ?_⟩
  intro fs pool fp idx st
  simp only [processLine, hp]

/-- Witness for the amended claim C2 at the concrete malformed line
`#include "x.h` (opening delimiter at position 0, no closing
delimiter). -/
theorem malformedIncludeLine_parsed_to_rest_witness :
    parseIncludeDirective "#include \"x.h" =
      some (String.mk ((("#include \"x.h" : String).data.drop includeDirectiveChars.length).drop 1)) ∧
    ∀ (fs : FileSystem) (pool : List (String × PathC)) (fp : PathC) (idx : Nat) (st : PassState),
      processLine fs pool fp idx "#include \"x.h" st =
        processInclude fs pool fp idx
          (String.mk ((("#include \"x.h" : String).data.drop includeDirectiveChars.length).drop 1)) st :=
  malformedIncludeLine_parsed_to_rest "#include \"x.h" 0 (by rfl) (by rfl) (by rfl)

/-- Claim C4, counterexample: in `fsRel`, the include text `u.h` is
recorded as conflicted at `p/f1.cpp:1`, and `p/sub/f2.cpp:1` is a
later occurrence of the same text in the parse set; yet the final
conflict entry holds only the first location, because the second
occurrence was resolved relatively (its own directory contains `u.h`)
before the conflict map was consulted. -/
theorem conflictContinuation_skipped_by_relative :
    computeIncludeResolve fsRel stgRel = some rRelLit ∧
    rRelLit.conflictedIncludeMap.lookup "u.h" =
      some ⟨[⟨["p", "f1.cpp"], 1⟩], [["r", "D"], ["r", "E"]]⟩ ∧
    occAt fsRel ["p", "sub", "f2.cpp"] 1 = some "u.h" ∧
    (⟨["p", "sub", "f2.cpp"], 1⟩ : IncludeLocation) ∉
      ([⟨["p", "f1.cpp"], 1⟩] : List IncludeLocation) := by
  exact ⟨rfl, rfl, rfl, by decide⟩

/-- Claim C4, amended: once an include text has an entry in the
conflict map, every subsequent occurrence of that text whose relative
resolution fails (the join with the including file directory does not
exist) is appended to that existing entry and nothing else changes: no
second entry is created and the occurrence is neither enqueued, nor
re-resolved, nor recorded as unresolved.  Occurrences whose relative
resolution succeeds bypass the conflict map entirely. -/
theorem conflictContinuation_when_not_relative (fs : FileSystem) (pool : List (String × PathC))
    (fp : PathC) (idx : Nat) (incl : String) (st : PassState) (ci : ConflictedInclude)
    (hrel : fs.existsPath (fp.dropLast ++ splitPath incl) = false)
    (hlook : conflictLookup st.result.conflictedIncludeMap incl = some ci) :
    processInclude fs pool fp idx incl st =
      { st with result := { st.result with conflictedIncludeMap := conflictAppendLoc st.result.conflictedIncludeMap incl ⟨fp, idx⟩ } } := by
  simp only [processInclude]
  rw [if_neg (by simp [hrel]), hlook]

/-- Witness for the amended claim C4 at a concrete input: with the
conflict entry of `stConflictU` present and no relative match (empty
filesystem), the occurrence at `p/f2.cpp:1` is appended. -/
theorem conflictContinuation_when_not_relative_witness :
    processInclude fsEmpty [] ["p", "f2.cpp"] 1 "u.h" stConflictU =
      { stConflictU with result := { stConflictU.result with conflictedIncludeMap := conflictAppendLoc stConflictU.result.conflictedIncludeMap "u.h" ⟨["p", "f2.cpp"], 1⟩ } } :=
  conflictContinuation_when_not_relative fsEmpty [] ["p", "f2.cpp"] 1 "u.h" stConflictU
    ⟨[⟨["p", "f1.cpp"], 1⟩], [["r", "D"], ["r", "E"]]⟩ (by rfl) (by rfl)

/-- Claim C8: the result a single (first) run of the pass produces on
`fsTwice` — the result an idempotent implementation would produce on
every run.  The source cannot deliver it twice in one process: the
function-local `static` helper lambdas capture the first call's local
containers by reference and are initialized only once, so a second
call works on destroyed locals (undefined behavior). -/
theorem single_run_result_welldefined :
    computeIncludeResolve fsTwice stgTwice =
      some { invalidPathSet := []
             unresolvedIncludeSet := []
             conflictedIncludeMap := []
             resolveIncludeFolderSet := [["r", "D"]] } := by rfl

/-- Claim C10: every conflict entry of a returned result holds at
least two resolving directories and a non-empty location set, and each
include text occurs as a key of the (multi)map at most once. -/
theorem conflict_map_entry_invariants (fs : FileSystem) (stg : IncludeResolverSettings)
    (r : IncludeResolverResult) (h : computeIncludeResolve fs stg = some r) :
    (r.conflictedIncludeMap.map Prod.fst).Nodup ∧
    ∀ e ∈ r.conflictedIncludeMap,
      2 ≤ e.2.resolveIncludeFolderSet.length ∧ e.2.includeLocationSet ≠ [] := by
  obtain ⟨pool, hpool, hinv⟩ := computeIncludeResolve_resultInv h
  refine ⟨hinv.1, ?_⟩
  intro e he
  obtain ⟨hdirs, hlen, hne, -⟩ := hinv.2.1 e he
  exact ⟨by rw [hdirs]; exact hlen, hne⟩

/-- Witness for claim C10 on the concrete `fsPool` run: its only
conflict entry (`b.h`) has two directories and one location, and the
key list is duplicate-free. -/
theorem conflict_map_entry_invariants_witness :
    (rPoolLit.conflictedIncludeMap.map Prod.fst).Nodup ∧
    2 ≤ (("b.h", (⟨[⟨["p", "main.cpp"], 2⟩], [["r", "D"], ["r", "E"]]⟩ : ConflictedInclude)) :
        String × ConflictedInclude).2.resolveIncludeFolderSet.length := by
  have h := conflict_map_entry_invariants fsPool stgPool rPoolLit (by rfl)
  exact ⟨h.1, (h.2 ("b.h", ⟨[⟨["p", "main.cpp"], 2⟩], [["r", "D"], ["r", "E"]]⟩) (by decide)).1⟩

/-- Claim C6: a well-formed include occurrence never lands in two
result categories: no (file, line) is both an unresolved record and a
conflict location, and no (file, line) sits in the location sets of
two different conflict entries.  (Together with the per-occurrence
case split of the resolution order theorem, each processed occurrence
lands in exactly one of: enqueued/no record, unresolved, one conflict
entry.) -/
theorem classification_exclusive (fs : FileSystem) (stg : IncludeResolverSettings)
    (r : IncludeResolverResult) (h : computeIncludeResolve fs stg = some r)
    (f : PathC) (l : Nat) :
    (¬ ((∃ u ∈ r.unresolvedIncludeSet, u.filePath = f ∧ u.line = l) ∧
        (∃ t ci, (t, ci) ∈ r.conflictedIncludeMap ∧
          (⟨f, l⟩ : IncludeLocation) ∈ ci.includeLocationSet))) ∧
    (∀ t1 ci1 t2 ci2, (t1, ci1) ∈ r.conflictedIncludeMap → (t2, ci2) ∈ r.conflictedIncludeMap →
      (⟨f, l⟩ : IncludeLocation) ∈ ci1.includeLocationSet →
      (⟨f, l⟩ : IncludeLocation) ∈ ci2.includeLocationSet → t1 = t2) := by
  obtain ⟨pool, hpool, hinv⟩ := computeIncludeResolve_resultInv h
  constructor
  · rintro ⟨⟨u, hu, huf, hul⟩, t, ci, hci, hloc⟩
    obtain ⟨hocc1, hfi1⟩ := hinv.2.2 u hu
    have hocc2 := (hinv.2.1 (t, ci) hci).2.2.2 ⟨f, l⟩ hloc
    have hlen2 := (hinv.2.1 (t, ci) hci).2.1
    rw [huf, hul] at hocc1
    rw [hocc1] at hocc2
    injection hocc2 with hocc3
    rw [← hocc3] at hlen2
    rw [hfi1] at hlen2
    cases hlen2
  · intro t1 ci1 t2 ci2 h1 h2 hl1 hl2
    have o1 := (hinv.2.1 (t1, ci1) h1).2.2.2 ⟨f, l⟩ hl1
    have o2 := (hinv.2.1 (t2, ci2) h2).2.2.2 ⟨f, l⟩ hl2
    exact Option.some.inj (o1.symm.trans o2)

/-- Witness for claim C6 on the concrete `fsPool` run: the unresolved
occurrence at `p/main.cpp:3` is in no conflict location set, and the
conflict location `p/main.cpp:2` determines its include text
uniquely. -/
theorem classification_exclusive_witness :
    (¬ ((∃ u ∈ rPoolLit.unresolvedIncludeSet, u.filePath = ["p", "main.cpp"] ∧ u.line = 3) ∧
        (∃ t ci, (t, ci) ∈ rPoolLit.conflictedIncludeMap ∧
          (⟨["p", "main.cpp"], 3⟩ : IncludeLocation) ∈ ci.includeLocationSet))) ∧
    ("b.h" : String) = "b.h" := by
  refine ⟨(classification_exclusive fsPool stgPool rPoolLit (by rfl) ["p", "main.cpp"] 3).1, ?_⟩
  exact (classification_exclusive fsPool stgPool rPoolLit (by rfl) ["p", "main.cpp"] 2).2
    "b.h" ⟨[⟨["p", "main.cpp"], 2⟩], [["r", "D"], ["r", "E"]]⟩
    "b.h" ⟨[⟨["p", "main.cpp"], 2⟩], [["r", "D"], ["r", "E"]]⟩
    (by decide) (by decide) (by decide) (by decide)

/-- Claim C3, counterexample: in the `fsPool` run, the candidate
search for `a.h` yields exactly the directory `r/D`, which duly enters
the final resolved-directory set — but the same directory also appears
in the resolving-directory set of the `ConflictedInclude` recorded for
the different include text `b.h`, so "never appears in the
resolving-directory set of any ConflictedInclude in the result" is
false as stated. -/
theorem singleCandidate_dir_in_other_conflict :
    computeIncludeResolve fsPool stgPool = some rPoolLit ∧
    poolOf fsPool stgPool = some poolPoolLit ∧
    findInclude poolPoolLit "a.h" = [["r", "D"]] ∧
    ["r", "D"] ∈ rPoolLit.resolveIncludeFolderSet ∧
    rPoolLit.conflictedIncludeMap.lookup "b.h" =
      some ⟨[⟨["p", "main.cpp"], 2⟩], [["r", "D"], ["r", "E"]]⟩ ∧
    ["r", "D"] ∈ ([["r", "D"], ["r", "E"]] : List PathC) := by
  exact ⟨rfl, rfl, rfl, by decide, rfl, by decide⟩

/-- Claim C3, amended: when an occurrence reaches the candidate-pool
search (relative resolution failed, no existing conflict entry) and
the search yields exactly one directory, that directory is added to
the resolved-directory set of the state, the resolved-directory set
only grows for the rest of the pass, and the final conflict map never
holds an entry for an include text with a single-candidate search — so
the directory is in the final resolved set and never appears in a
`ConflictedInclude` recorded for that include text (it may still
appear in conflict entries of other include texts). -/
theorem singleCandidate_collapse :
    (∀ (fs : FileSystem) (pool : List (String × PathC)) (fp : PathC) (idx : Nat)
        (incl : String) (st : PassState) (d : PathC),
      fs.existsPath (fp.dropLast ++ splitPath incl) = false →
      conflictLookup st.result.conflictedIncludeMap incl = none →
      findInclude pool incl = [d] →
      d ∈ (processInclude fs pool fp idx incl st).result.resolveIncludeFolderSet) ∧
    (∀ {σ : Type} (fs : FileSystem) (pool : List (String × PathC))
        (cb : Nat → Nat → PathC → σ → σ) (fuel i : Nat) (st : PassState) (s : σ) (x : PathC),
      x ∈ st.result.resolveIncludeFolderSet →
      x ∈ (parseLoop fs pool cb fuel i st s).1.result.resolveIncludeFolderSet) ∧
    (∀ (fs : FileSystem) (stg : IncludeResolverSettings) (r : IncludeResolverResult)
        (pool : List (String × PathC)) (t : String),
      computeIncludeResolve fs stg = some r →
      poolOf fs stg = some pool →
      (findInclude pool t).length = 1 →
      r.conflictedIncludeMap.lookup t = none) := by
  refine ⟨?_, ?_, ?_⟩
  · intro fs pool fp idx incl st d hrel hlook hfi
    simp only [processInclude]
    rw [if_neg (by simp [hrel]), hlook, hfi]
    rw [if_pos (by simp : ([d] : List PathC) ≠ [])]
    rw [if_pos (by rfl : (([d] : List PathC).length == 1) = true)]
    rw [addToParse_result]
    exact mem_insertPathSorted.mpr (Or.inl rfl)
  · intro σ fs pool cb fuel i st s x hx
    exact parseLoop_resolveSet_mono fs pool cb fuel i st s x hx
  · intro fs stg r pool t hc hpool hlen
    obtain ⟨pool2, hpool2, hinvr⟩ := computeIncludeResolve_resultInv hc
    rw [hpool] at hpool2
    injection hpool2 with hpe
    subst hpe
    cases hl : r.conflictedIncludeMap.lookup t with
    | none => rfl
    | some ci =>
      have hs : (r.conflictedIncludeMap.lookup t).isSome := by
        rw [hl]
        rfl
      rw [List.lookup_isSome_iff] at hs
      obtain ⟨p, hp, hbeq⟩ := hs
      rw [beq_iff_eq] at hbeq
      have h2 := (hinvr.2.1 p hp).2.1
      rw [← hbeq] at h2
      rw [hlen] at h2
      cases h2 with
      | step h3 => cases h3

/-- Witness for the amended claim C3: the single candidate `r/D` of
`a.h` is inserted by the per-occurrence step at a concrete state, and
the `fsPool` run has no conflict entry for `a.h`. -/
theorem singleCandidate_collapse_witness :
    ["r", "D"] ∈ (processInclude fsEmpty poolSingleA ["q", "f.cpp"] 1 "a.h" stEmpty).result.resolveIncludeFolderSet ∧
    rPoolLit.conflictedIncludeMap.lookup "a.h" = none := by
  refine ⟨singleCandidate_collapse.1 fsEmpty poolSingleA ["q", "f.cpp"] 1 "a.h" stEmpty
    ["r", "D"] (by rfl) (by rfl) (by rfl), ?_⟩
  exact singleCandidate_collapse.2.2 fsPool stgPool rPoolLit poolPoolLit "a.h"
    (by rfl) (by rfl) (by rfl)

/-- Claim C5: the per-occurrence processing of the source is exactly
the application of the first applicable strategy in the priority order
stated by the design document — (1) relative resolution, (2)
existing-conflict continuation, (3) candidate-pool search, (4)
known-directory fallback, (5) record unresolved — and the fallback
tries the known include directories in stored order and uses the first
whose join with the include text exists, adding no new directory. -/
theorem resolution_priority_order :
    (∀ (fs : FileSystem) (pool : List (String × PathC)) (fp : PathC) (idx : Nat)
        (incl : String) (st : PassState),
      processInclude fs pool fp idx incl st =
        applyStrategy fs pool fp idx incl st (chooseStrategy fs pool st fp incl)) ∧
    (∀ (fs : FileSystem) (incl : String) (l : List PathC),
      findProjectInclude fs l incl =
        (l.find? (fun d => fs.existsPath (d ++ splitPath incl))).map
          (fun d => d ++ splitPath incl)) := by
  constructor
  · intro fs pool fp idx incl st
    by_cases h1 : fs.existsPath (fp.dropLast ++ splitPath incl) = true
    · have hcs : chooseStrategy fs pool st fp incl = ResolutionStrategy.relativeResolution := by
        simp only [chooseStrategy]
        rw [if_pos h1]
      rw [hcs]
      simp only [processInclude, applyStrategy]
      rw [if_pos h1]
    · cases hl : conflictLookup st.result.conflictedIncludeMap incl with
      | some ci =>
        have hcs : chooseStrategy fs pool st fp incl = ResolutionStrategy.conflictContinuation := by
          simp only [chooseStrategy]
          rw [if_neg h1, if_pos (by rw [hl]; rfl)]
        rw [hcs]
        simp only [processInclude, applyStrategy]
        rw [if_neg h1, hl]
      | none =>
        by_cases h3 : findInclude pool incl ≠ []
        · have hcs : chooseStrategy fs pool st fp incl = ResolutionStrategy.candidatePoolSearch := by
            simp only [chooseStrategy]
            rw [if_neg h1, if_neg (by rw [hl]; exact Bool.false_ne_true), if_pos h3]
          rw [hcs]
          simp only [processInclude, applyStrategy]
          rw [if_neg h1, hl, if_pos h3]
        · cases h4 : findProjectInclude fs st.result.resolveIncludeFolderSet incl with
          | some fileFound =>
            have hcs : chooseStrategy fs pool st fp incl = ResolutionStrategy.knownDirFallback := by
              simp only [chooseStrategy]
              rw [if_neg h1, if_neg (by rw [hl]; exact Bool.false_ne_true), if_neg h3,
                if_pos (by rw [h4]; rfl)]
            rw [hcs]
            simp only [processInclude, applyStrategy]
            rw [if_neg h1, hl, if_neg h3, h4]
          | none =>
            have hcs : chooseStrategy fs pool st fp incl = ResolutionStrategy.recordUnresolved := by
              simp only [chooseStrategy]
              rw [if_neg h1, if_neg (by rw [hl]; exact Bool.false_ne_true), if_neg h3,
                if_neg (by rw [h4]; exact Bool.false_ne_true)]
            rw [hcs]
            simp only [processInclude, applyStrategy]
            rw [if_neg h1, hl, if_neg h3, h4]
  · intro fs incl l
    exact findProjectInclude_eq_find? fs incl l

/-- Scanning one file only appends to the worklist. -/
theorem processFile_list_isPrefix (fs : FileSystem) (pool : List (String × PathC))
    (st : PassState) (fp : PathC) :
    st.cppFileToParseList <+: (processFile fs pool st fp).cppFileToParseList :=
  processFile_pres fs pool (fun st2 => st.cppFileToParseList <+: st2.cppFileToParseList)
    (fun fp2 idx incl st2 _ h2 => h2.trans (processInclude_list_isPrefix fs pool fp2 idx incl st2))
    fp st (List.prefix_refl _)

/-- An element of a list is unchanged in any extension of the list by
a prefix relation. -/
theorem isPrefix_get {α : Type} {l1 l2 : List α} (hp : l1 <+: l2) (i : Nat)
    (h1 : i < l1.length) (h2 : i < l2.length) : l2.get ⟨i, h2⟩ = l1.get ⟨i, h1⟩ := by
  obtain ⟨t, rfl⟩ := hp
  simp only [List.get_eq_getElem]
  exact List.getElem_append_left h1

/-- The pass state computed by the loop does not depend on the status
callback or on its state. -/
theorem parseLoop_state_indep {σ₁ σ₂ : Type} (fs : FileSystem) (pool : List (String × PathC))
    (cb₁ : Nat → Nat → PathC → σ₁ → σ₁) (cb₂ : Nat → Nat → PathC → σ₂ → σ₂) :
    ∀ (fuel i : Nat) (st : PassState) (s₁ : σ₁) (s₂ : σ₂),
      (parseLoop fs pool cb₁ fuel i st s₁).1 = (parseLoop fs pool cb₂ fuel i st s₂).1 := by
  intro fuel
  induction fuel with
  | zero =>
    intro i st s₁ s₂
    rfl
  | succ n ih =>
    intro i st s₁ s₂
    by_cases h : i < st.cppFileToParseList.length
    · simp only [parseLoop]
      rw [dif_pos h, dif_pos h]
      exact ih _ _ _ _
    · simp only [parseLoop]
      rw [dif_neg h, dif_neg h]

/-- The trace collected by `traceCb` through the loop: one entry per
executed iteration, in order; the k-th new entry carries current index
i+k+1, the worklist size at that moment (between i+k+1 and the final
worklist size), and the (i+k)-th worklist file. -/
theorem parseLoop_traceSpec (fs : FileSystem) (pool : List (String × PathC)) :
    ∀ (fuel i : Nat) (st : PassState) (tr : List (Nat × Nat × PathC)),
    ∃ extra : List (Nat × Nat × PathC),
      (parseLoop fs pool traceCb fuel i st tr).2 = tr ++ extra ∧
      ((parseLoop fs pool traceCb fuel i st tr).1.cppFileToParseList.length ≤ i + extra.length ∨
        extra.length = fuel) ∧
      ∀ k (hk : k < extra.length),
        ∃ hlt : i + k < (parseLoop fs pool traceCb fuel i st tr).1.cppFileToParseList.length,
          (extra.get ⟨k, hk⟩).1 = i + k + 1 ∧
          (extra.get ⟨k, hk⟩).2.2 =
            (parseLoop fs pool traceCb fuel i st tr).1.cppFileToParseList.get ⟨i + k, hlt⟩ ∧
          i + k + 1 ≤ (extra.get ⟨k, hk⟩).2.1 ∧
          (extra.get ⟨k, hk⟩).2.1 ≤
            (parseLoop fs pool traceCb fuel i st tr).1.cppFileToParseList.length := by
  intro fuel
  induction fuel with
  | zero =>
    intro i st tr
    refine ⟨[], by simp [parseLoop], Or.inr rfl, ?_⟩
    intro k hk
    exact absurd hk (Nat.not_lt_zero k)
  | succ n ih =>
    intro i st tr
    by_cases h : i < st.cppFileToParseList.length
    · have hstep : parseLoop fs pool traceCb (n + 1) i st tr =
        parseLoop fs pool traceCb n (i + 1)
          (processFile fs pool st (st.cppFileToParseList.get ⟨i, h⟩))
          (traceCb (i + 1) st.cppFileToParseList.length (st.cppFileToParseList.get ⟨i, h⟩) tr) := by
        simp only [parseLoop]
        rw [dif_pos h]
      obtain ⟨extra, heq, hend, hprops⟩ := ih (i + 1)
        (processFile fs pool st (st.cppFileToParseList.get ⟨i, h⟩))
        (traceCb (i + 1) st.cppFileToParseList.length (st.cppFileToParseList.get ⟨i, h⟩) tr)
      have hpre : st.cppFileToParseList <+:
          (parseLoop fs pool traceCb (n + 1) i st tr).1.cppFileToParseList := by
        rw [hstep]
        exact (processFile_list_isPrefix fs pool st _).trans
          (parseLoop_list_isPrefix fs pool traceCb n (i + 1) _ _)
      refine ⟨(i + 1, st.cppFileToParseList.length, st.cppFileToParseList.get ⟨i, h⟩) :: extra,
        ?_, ?_, ?_⟩
      · rw [hstep, heq]
        simp [traceCb]
      · rw [hstep]
        rcases hend with hend | hend
        · left
          simp only [List.length_cons]
          rw [← hstep]
          rw [hstep]
          omega
        · right
          simp only [List.length_cons, hend]
      · intro k hk
        cases k with
        | zero =>
          have hlt : i + 0 < (parseLoop fs pool traceCb (n + 1) i st tr).1.cppFileToParseList.length :=
            Nat.lt_of_lt_of_le h hpre.length_le
          refine ⟨hlt, rfl, ?_, h, hpre.length_le⟩
          exact (isPrefix_get hpre i h hlt).symm
        | succ k2 =>
          have hk2 : k2 < extra.length := Nat.lt_of_succ_lt_succ hk
          obtain ⟨hlt2, h1a, h2a, h3a, h4a⟩ := hprops k2 hk2
          have hidx : i + (k2 + 1) = (i + 1) + k2 := by omega
          rw [hstep, hidx]
          refine ⟨hlt2, ?_, ?_, ?_, ?_⟩
          · rw [List.get_cons_succ]
            exact h1a
          · rw [List.get_cons_succ]
            exact h2a
          · rw [List.get_cons_succ]
            exact h3a
          · rw [List.get_cons_succ]
            exact h4a
    · refine ⟨[], ?_, ?_, ?_⟩
      · simp only [parseLoop]
        rw [dif_neg h]
        simp
      · left
        simp only [parseLoop]
        rw [dif_neg h]
        have h2 := Nat.le_of_not_lt h
        simpa using h2
      · intro k hk
        exact absurd hk (Nat.not_lt_zero k)

/-- Claim C9: the progress callback is invoked synchronously once per
scanned file, before the file is scanned, with the 1-based index of
the file, the current worklist size at that moment (at least the
index, at most the final size — it may grow between calls), and the
file's path (the k-th callback reports exactly the k-th worklist
entry); and the returned result is identical for any two callbacks and
callback states — the callback never influences resolution
outcomes. -/
theorem progress_callback_spec :
    (∀ (σ₁ σ₂ : Type) (fs : FileSystem) (stg : IncludeResolverSettings)
        (cb₁ : Nat → Nat → PathC → σ₁ → σ₁) (cb₂ : Nat → Nat → PathC → σ₂ → σ₂)
        (s₁ : σ₁) (s₂ : σ₂),
      (computeIncludeResolveFull fs stg cb₁ s₁).map (fun x => x.1) =
        (computeIncludeResolveFull fs stg cb₂ s₂).map (fun x => x.1)) ∧
    (∀ (fs : FileSystem) (stg : IncludeResolverSettings) (st : PassState)
        (tr : List (Nat × Nat × PathC)),
      fs.wf = true →
      computeIncludeResolveFull fs stg traceCb [] = some (st, tr) →
      tr.length = st.cppFileToParseList.length ∧
      ∀ k (hk : k < tr.length) (hk2 : k < st.cppFileToParseList.length),
        (tr.get ⟨k, hk⟩).1 = k + 1 ∧
        (tr.get ⟨k, hk⟩).2.2 = st.cppFileToParseList.get ⟨k, hk2⟩ ∧
        k + 1 ≤ (tr.get ⟨k, hk⟩).2.1 ∧
        (tr.get ⟨k, hk⟩).2.1 ≤ st.cppFileToParseList.length) := by
  constructor
  · intro σ₁ σ₂ fs stg cb₁ cb₂ s₁ s₂
    rw [computeIncludeResolveFull, computeIncludeResolveFull]
    cases hseeds : seedsOf fs stg with
    | none => rfl
    | some seeds =>
      cases hscan : resolveScanOf fs stg with
      | none => rfl
      | some pr =>
        simp only [Option.map_some']
        exact congrArg some (parseLoop_state_indep fs (buildResolveFileMultiMap pr.1)
          cb₁ cb₂ (fuelOf fs seeds) 0 (initialStateOf seeds pr.2) s₁ s₂)
  · intro fs stg st tr hwf hc
    rw [computeIncludeResolveFull] at hc
    cases hseeds : seedsOf fs stg with
    | none =>
      rw [hseeds] at hc
      cases hc
    | some seeds =>
      rw [hseeds] at hc
      cases hscan : resolveScanOf fs stg with
      | none =>
        rw [hscan] at hc
        cases hc
      | some pr =>
        rw [hscan] at hc
        injection hc with hc2
        have hst : (parseLoop fs (buildResolveFileMultiMap pr.1) traceCb (fuelOf fs seeds) 0
            (initialStateOf seeds pr.2) []).1 = st := by
          rw [hc2]
        have htr : (parseLoop fs (buildResolveFileMultiMap pr.1) traceCb (fuelOf fs seeds) 0
            (initialStateOf seeds pr.2) []).2 = tr := by
          rw [hc2]
        obtain ⟨extra, heq, hend, hprops⟩ := parseLoop_traceSpec fs
          (buildResolveFileMultiMap pr.1) (fuelOf fs seeds) 0 (initialStateOf seeds pr.2) []
        have htr2 : tr = extra := by
          rw [← htr, heq]
          simp
        have hPO : PoolOK fs (buildResolveFileMultiMap pr.1) := by
          rw [resolveScanOf] at hscan
          exact poolOK_of_scan hwf hscan
        have hInvF : WorklistInv fs seeds
            (parseLoop fs (buildResolveFileMultiMap pr.1) traceCb (fuelOf fs seeds) 0
              (initialStateOf seeds pr.2) []).1 :=
          parseLoop_pres fs (buildResolveFileMultiMap pr.1) traceCb (WorklistInv fs seeds)
            (fun fp idx incl st2 _ h2 => processInclude_worklistInv hPO fp idx incl st2 h2)
            (fuelOf fs seeds) 0 (initialStateOf seeds pr.2) []
            (initialState_worklistInv fs seeds pr.2)
        have hboundF := worklistInv_length_le hInvF
        have hle1 : extra.length ≤
            (parseLoop fs (buildResolveFileMultiMap pr.1) traceCb (fuelOf fs seeds) 0
              (initialStateOf seeds pr.2) []).1.cppFileToParseList.length := by
          by_cases hz : extra.length = 0
          · omega
          · obtain ⟨hlt, -⟩ := hprops (extra.length - 1) (by omega)
            omega
        have hcomplete : (parseLoop fs (buildResolveFileMultiMap pr.1) traceCb (fuelOf fs seeds) 0
            (initialStateOf seeds pr.2) []).1.cppFileToParseList.length ≤ extra.length := by
          rcases hend with hend | hend
          · simpa using hend
          · exfalso
            have hf : fuelOf fs seeds = seeds.length + fs.allKeys.length + 1 := rfl
            omega
        subst htr2
        rw [← hst]
        refine ⟨by omega, ?_⟩
        intro k hk hk2
        obtain ⟨hlt, h1a, h2a, h3a, h4a⟩ := hprops k hk
        simp only [Nat.zero_add] at h1a h2a h3a h4a hlt
        refine ⟨h1a, ?_, h3a, h4a⟩
        exact h2a

/-- Witness for claim C9 on the concrete `fsPool` run: the no-op and
tracing callbacks produce the same pass state, the trace has one entry
per scanned file, and the first entry carries index 1. -/
theorem progress_callback_spec_witness :
    ((computeIncludeResolveFull fsPool stgPool (fun _ _ _ (s : Unit) => s) ()).map (fun x => x.1) =
      (computeIncludeResolveFull fsPool stgPool traceCb []).map (fun x => x.1)) ∧
    trPoolLit.length = stPoolFinalLit.cppFileToParseList.length ∧
    (trPoolLit.get ⟨0, by decide⟩).1 = 1 := by
  have h1 := progress_callback_spec.1 Unit (List (Nat × Nat × PathC)) fsPool stgPool
    (fun _ _ _ s => s) traceCb () []
  have h2 := progress_callback_spec.2 fsPool stgPool stPoolFinalLit trPoolLit (by rfl) (by rfl)
  exact ⟨h1, h2.1, (h2.2 0 (by decide) (by decide)).1⟩

/-- Claim C7, counterexample: with the same parse folder configured
twice (`stgDup`), the seed list holds `p/main.cpp` twice, and the loop
scans it twice — the status callback fires twice for the same file —
because the source deduplicates only include-driven enqueues, not the
seed list it iterates. -/
theorem duplicate_seed_scanned_twice :
    seedsOf fsDup stgDup = some [["p", "main.cpp"], ["p", "main.cpp"]] ∧
    (computeIncludeResolveFull fsDup stgDup traceCb []).map (fun x => x.2.map (fun e => e.2.2)) =
      some [["p", "main.cpp"], ["p", "main.cpp"]] := by
  exact ⟨rfl, rfl⟩

/-- Claim C7, amended: the worklist grows only by appending canonical
paths not yet in the membership set, so on a finite filesystem the
pass terminates (any fuel beyond `fuelOf` leaves the loop output
unchanged); every seeded file is in the scanned worklist (the seed
list is a prefix of it); and provided the seed list itself is
duplicate-free — which the source does not guarantee when configured
parse folders repeat or overlap — the final worklist is duplicate-free,
i.e. every file is scanned exactly once. -/
theorem worklist_terminates_scans_once (fs : FileSystem) (stg : IncludeResolverSettings)
    (seeds : List PathC) (pr : List PathC × IncludeResolverResult)
    (hwf : fs.wf = true) (hseeds : seedsOf fs stg = some seeds)
    (hscan : resolveScanOf fs stg = some pr) :
    (∀ (σ : Type) (cb : Nat → Nat → PathC → σ → σ) (s : σ) (k : Nat),
      parseLoop fs (buildResolveFileMultiMap pr.1) cb (fuelOf fs seeds + k) 0
          (initialStateOf seeds pr.2) s =
        parseLoop fs (buildResolveFileMultiMap pr.1) cb (fuelOf fs seeds) 0
          (initialStateOf seeds pr.2) s) ∧
    (∀ (st : PassState) (s2 : Unit),
      computeIncludeResolveFull fs stg (fun _ _ _ (s : Unit) => s) () = some (st, s2) →
      (seeds <+: st.cppFileToParseList) ∧
      (seeds.Nodup → st.cppFileToParseList.Nodup)) := by
  have hPO : PoolOK fs (buildResolveFileMultiMap pr.1) := by
    have hscan2 := hscan
    rw [resolveScanOf] at hscan2
    exact poolOK_of_scan hwf hscan2
  constructor
  · intro σ cb s k
    exact parseLoop_fuel_add cb hPO (initialStateOf seeds pr.2) s
      (initialState_worklistInv fs seeds pr.2) k
  · intro st s2 hc
    rw [computeIncludeResolveFull, hseeds, hscan] at hc
    injection hc with hc2
    have hst : (parseLoop fs (buildResolveFileMultiMap pr.1) (fun _ _ _ (s : Unit) => s)
        (fuelOf fs seeds) 0 (initialStateOf seeds pr.2) ()).1 = st := by
      rw [hc2]
    have hInvF : WorklistInv fs seeds
        (parseLoop fs (buildResolveFileMultiMap pr.1) (fun _ _ _ (s : Unit) => s)
          (fuelOf fs seeds) 0 (initialStateOf seeds pr.2) ()).1 :=
      parseLoop_pres fs (buildResolveFileMultiMap pr.1) _ (WorklistInv fs seeds)
        (fun fp idx incl st2 _ h2 => processInclude_worklistInv hPO fp idx incl st2 h2)
        (fuelOf fs seeds) 0 (initialStateOf seeds pr.2) ()
        (initialState_worklistInv fs seeds pr.2)
    rw [hst] at hInvF
    obtain ⟨-, tail, hlist, hnd, hdisj, -⟩ := hInvF
    constructor
    · exact ⟨tail, hlist.symm⟩
    · intro hseedsnd
      rw [hlist]
      exact List.Nodup.append hseedsnd hnd
        (fun a ha hb => hdisj a hb ha)

/-- Witness for the amended claim C7 on the concrete `fsPool` run: one
extra unit of fuel changes nothing, the seed is a prefix of the final
worklist, and the final worklist is duplicate-free. -/
theorem worklist_terminates_scans_once_witness :
    (parseLoop fsPool (buildResolveFileMultiMap prPoolLit.1) (fun _ _ _ (s : Unit) => s)
        (fuelOf fsPool [["p", "main.cpp"]] + 1) 0 (initialStateOf [["p", "main.cpp"]] prPoolLit.2) () =
      parseLoop fsPool (buildResolveFileMultiMap prPoolLit.1) (fun _ _ _ (s : Unit) => s)
        (fuelOf fsPool [["p", "main.cpp"]]) 0 (initialStateOf [["p", "main.cpp"]] prPoolLit.2) ()) ∧
    ([["p", "main.cpp"]] <+: stPoolFinalLit.cppFileToParseList) ∧
    stPoolFinalLit.cppFileToParseList.Nodup := by
  have h := worklist_terminates_scans_once fsPool stgPool [["p", "main.cpp"]] prPoolLit
    (by rfl) (by rfl) (by rfl)
  refine ⟨h.1 Unit (fun _ _ _ s => s) () 1, ?_, ?_⟩
  · exact (h.2 stPoolFinalLit () (by rfl)).1
  · exact (h.2 stPoolFinalLit () (by rfl)).2 (by decide)

end IncludeResolverModel
